import Mathlib

/-!
# N-Queens hill climbing: conflict heuristic, search engine, restart loop

A shallow embedding of `BoardPieces.go`, `HillClimb.go` and, from `main.go`,
`RandomPlace`, `SetManualPieces` and the closure `RunHillClimb`.

* A Go slice is a `List`; in-place writes `s[i] = v` become `List.set`.
* Go `int` is `Int`. The sums and differences of coordinates in `CheckDiagonal`
  wrap around at 64 bits (`wrapInt`), as the machine's do. Heuristic values,
  step counts and indices are counters bounded by the size of the slice or the
  length of the run and are left unwrapped.
* A run-time panic (index out of range, `rand.Intn` of a non-positive bound)
  is `none`.
* Printing (`showPath`, `PrintPieces`) is console output only and is left out.
* The random source and standard input are parameters: `rand k` is the raw
  value of the `k`-th random draw, `manual k i` the `i`-th piece of the `k`-th
  placement typed in.
-/

namespace NQueens

/-! ## Pieces and the conflict heuristic (`BoardPieces.go`) -/

/-- The piece type holds the x,y coordinate of a queen. -/
structure Piece where
  x : Int
  y : Int
deriving DecidableEq, Repr

/-- The value a Go `int` holds after an arithmetic operation whose exact result
is `z`: two's complement wrap-around into `[-2^63, 2^63)`. -/
def wrapInt (z : Int) : Int :=
  (z + 9223372036854775808) % 18446744073709551616 - 9223372036854775808

/-- The closure `CheckDiagonal` inside `QueenHeuristic`: 1 when one of the two
intercept tests on `piece` succeeds, else 0. Every `+`, `-` and unary `-` of
the code is followed by the wrap-around of the machine. -/
def CheckDiagonal (p piece : Piece) : Int :=
  let intercept1 := wrapInt (p.y - p.x)
  let check1 := decide (wrapInt (wrapInt (piece.x + intercept1) - piece.y) = 0)
  let intercept2 := wrapInt (p.y + p.x)
  let check2 :=
    decide (wrapInt (wrapInt (wrapInt (-piece.x) + intercept2) - piece.y) = 0)
  if check1 || check2 then 1 else 0

/-- One pass of the body of the `range pieces` loop in `QueenHeuristic`. -/
def queenStep (p : Piece) (h : Int) (piece : Piece) : Int :=
  if p.x = piece.x ∨ p.y = piece.y then h + 1 else h + CheckDiagonal p piece

/-- Go function `func (p *Piece) QueenHeuristic(pieces []Piece) int`: counts how many of
`pieces` threaten `p`. -/
def Piece.QueenHeuristic (p : Piece) (pieces : List Piece) : Int :=
  pieces.foldl (queenStep p) 0

/-- The loop `for i, p := range pieces { h += p.QueenHeuristic(pieces[i+1:]) }`
run over the indices `idxs`, starting from the accumulator `h`. -/
def sumHeuristic (pieces : List Piece) (idxs : List Nat) (h : Int) : Int :=
  idxs.foldl
    (fun acc i =>
      match pieces[i]? with
      | some p => acc + p.QueenHeuristic (pieces.drop (i + 1))
      | none => acc)
    h

/-- The aggregate heuristic of a placement, as computed at the top of each
`HillClimb` iteration (`hToBeat`) and for each candidate move (`h`). -/
def aggregateHeuristic (pieces : List Piece) : Int :=
  sumHeuristic pieces (List.range pieces.length) 0

/-! ## The board (`BoardPieces.go`) -/

/-- Go type `type BoardRow []int`. -/
abbrev BoardRow := List Int

/-- Go type `type Board []BoardRow`: a slice of int slices. -/
abbrev Board := List BoardRow

/-- Position in a slice of length `len` addressed by the Go int `i`;
`none` is the index-out-of-range panic. -/
def sliceIndex (len : Nat) (i : Int) : Option Nat :=
  if 0 ≤ i ∧ i < (len : Int) then some i.toNat else none

/-- The assignment `s[i] = v` for a natural index; `none` is the panic. -/
def sliceSet {α : Type} (s : List α) (i : Nat) (v : α) : Option (List α) :=
  if i < s.length then some (s.set i v) else none

/-- Go function `func (b *Board) Set(x, y, v int)`: `(*b)[len(*b)-1-y][x] = v`. -/
def Board.Set (b : Board) (x y v : Int) : Option Board :=
  match sliceIndex b.length ((b.length : Int) - 1 - y) with
  | none => none
  | some r =>
    match b[r]? with
    | none => none
    | some row =>
      match sliceIndex row.length x with
      | none => none
      | some c => some (b.set r (row.set c v))

/-- Go function `func (b *Board) Get(x, y int) int`: `(*b)[len(*b)-1-y][x]`. -/
def Board.Get (b : Board) (x y : Int) : Option Int :=
  match sliceIndex b.length ((b.length : Int) - 1 - y) with
  | none => none
  | some r =>
    match b[r]? with
    | none => none
    | some row =>
      match sliceIndex row.length x with
      | none => none
      | some c => row[c]?

/-- Go function `func NewBoard(size int) Board`: `size` rows of `size` zeros. -/
def NewBoard (size : Nat) : Board :=
  List.replicate size (List.replicate size 0)

/-! ## Loops -/

/-- A `for ... range` loop whose body may panic: `body i` is run on the state
for each `i` of the list in turn. -/
def forEach {ι σ : Type} (body : ι → σ → Option σ) : List ι → σ → Option σ
  | [], s => some s
  | i :: rest, s =>
    match body i s with
    | none => none
    | some s1 => forEach body rest s1

/-! ## The hill-climbing engine (`HillClimb.go`) -/

/-- Go type `type Decision = func(...int) bool`; `none` is a panic of the function. -/
abbrev Decision := List Int → Option Bool

/-- Go type `type NoSolution struct { msg string }`. -/
structure NoSolution where
  msg : String
deriving DecidableEq, Repr

/-- The loop of `findPiece`, at slice position `idx`. -/
def findPieceLoop (x : Int) : List Piece → Nat → Option Nat
  | [], _ => none
  | piece :: rest, idx => if piece.x = x then some idx else findPieceLoop x rest (idx + 1)

/-- Go function `func findPiece(pieces []Piece, x int) (int, error)`; the second component
is the error (`none` is `nil`). -/
def findPiece (pieces : List Piece) (x : Int) : Nat × Option String :=
  match findPieceLoop x pieces 0 with
  | some idx => (idx, none)
  | none => (0, some "no piece found")

/-- The call `rand.Intn(n)` for the raw draw `r`: some value in `[0, n)`, every one of
which arises from some `r`; it panics when `n <= 0`. -/
def Intn (r : Nat) (n : Nat) : Option Nat :=
  if n = 0 then none else some (r % n)

/-- The loop `for _, p := range pieces { board.Set(p.x, p.y, hToBeat) }`. -/
def setCurrent (hToBeat : Int) (pieces : List Piece) (board : Board) : Option Board :=
  forEach (fun p b => Board.Set b p.x p.y hToBeat) pieces board

/-- State of the enumeration loops: the board, the placement slice, and a
trace of the cells handed to `board.Set` (the code keeps no such trace; it is
carried to state which cells the enumeration records). -/
abbrev EnumState := Board × List Piece × List Piece

/-- The body of `for y := range len(pieces)` for the piece `piece` read at
slice position `x`. -/
def moveBody (x : Nat) (piece : Piece) (y : Nat) (s : EnumState) : Option EnumState :=
  if (y : Int) ≠ piece.y then
    let tempPiece : Piece := { piece with y := (y : Int) }
    let pieces1 := s.2.1.set x tempPiece
    let h := aggregateHeuristic pieces1
    match Board.Set s.1 piece.x y h with
    | none => none
    | some board1 => some (board1, pieces1.set x piece, s.2.2 ++ [⟨piece.x, (y : Int)⟩])
  else some s

/-- The body of `for x, piece := range pieces`. -/
def columnBody (x : Nat) (s : EnumState) : Option EnumState :=
  match s.2.1[x]? with
  | none => none
  | some piece => forEach (moveBody x piece) (List.range s.2.1.length) s

/-- The section "Calculate all the possible moves and their H values". -/
def enumerateMoves (board : Board) (pieces : List Piece) : Option EnumState :=
  forEach columnBody (List.range pieces.length) (board, pieces, [])

/-- The body of the inner loop of `FindMinMoves` at the cell `(x, y)`. -/
def minBody (board : Board) (x y : Nat) (s : List Piece × Int) : Option (List Piece × Int) :=
  match Board.Get board x y with
  | none => none
  | some v =>
    if v = s.2 then some (s.1 ++ [⟨(x : Int), (y : Int)⟩], s.2)
    else if v < s.2 then some ([⟨(x : Int), (y : Int)⟩], v)
    else some s

/-- The closure `FindMinMoves` of `HillClimb`. -/
def FindMinMoves (board : Board) (h : Int) : Option (List Piece × Int) :=
  forEach (fun x s => forEach (minBody board x) (List.range board.length) s)
    (List.range board.length) ([], h)

/-- What one iteration has computed when it reaches `FindMinMoves`'s result. -/
structure Scan where
  board : Board
  pieces : List Piece
  hToBeat : Int
  minMoves : List Piece
  newH : Int

/-- One iteration of `HillClimb` up to and including the call of `FindMinMoves`. -/
def scanMoves (board : Board) (pieces : List Piece) : Option Scan :=
  let hToBeat := aggregateHeuristic pieces
  match setCurrent hToBeat pieces board with
  | none => none
  | some board1 =>
    match enumerateMoves board1 pieces with
    | none => none
    | some (board2, pieces2, _) =>
      match FindMinMoves board2 hToBeat with
      | none => none
      | some (minMoves, newH) => some ⟨board2, pieces2, hToBeat, minMoves, newH⟩

/-- The move selection and application: `rand.Intn(len(minMoves))`,
`minMoves[randIdx]`, `findPiece`, `pieces[replaceIdx] = chosenPiece`.
The result is the placement after the move. -/
def applyMove (r : Nat) (sc : Scan) : Option (List Piece) :=
  match Intn r sc.minMoves.length with
  | none => none
  | some randIdx =>
    match sc.minMoves[randIdx]? with
    | none => none
    | some chosenPiece =>
      sliceSet sc.pieces (findPiece sc.pieces chosenPiece.x).1 chosenPiece

/-- The variables of `HillClimb` that live across iterations, and the number
of random draws made so far. -/
structure State where
  board : Board
  pieces : List Piece
  count : Int
  draws : Nat

/-- The values returned by `HillClimb`; `err = none` is the `nil` error. -/
structure Result where
  board : Board
  pieces : List Piece
  count : Int
  err : Option NoSolution

/-- How one iteration of the `for` loop of `HillClimb` ends. -/
inductive Step where
  | next (s : State)
  | ret (r : Result)
  | panic

/-- One iteration of the `for` loop of `HillClimb`; `rand k` is the raw value
of the `k`-th random draw. -/
def HillClimbIter (decision : Decision) (stepLimit : Int) (rand : Nat → Nat) (s : State) : Step :=
  let count := s.count + 1
  match scanMoves s.board s.pieces with
  | none => Step.panic
  | some sc =>
    match applyMove (rand s.draws) sc with
    | none => Step.panic
    | some pieces1 =>
      match decision [sc.hToBeat, sc.newH, count, stepLimit] with
      | none => Step.panic
      | some true => Step.next ⟨sc.board, pieces1, count, s.draws + 1⟩
      | some false =>
        if sc.newH = 0 then Step.ret ⟨sc.board, pieces1, count, none⟩
        else Step.ret ⟨sc.board, pieces1, count, some ⟨"No Solution Found"⟩⟩

/-- How a run of `HillClimb` ends within a given number of iterations. -/
inductive Run where
  | returned (r : Result)
  | panicked
  | outOfFuel

/-- The `for` loop of `HillClimb`, run for at most `fuel` iterations. -/
def HillClimbLoop (decision : Decision) (stepLimit : Int) (rand : Nat → Nat) :
    Nat → State → Run
  | 0, _ => Run.outOfFuel
  | fuel + 1, s =>
    match HillClimbIter decision stepLimit rand s with
    | Step.next s1 => HillClimbLoop decision stepLimit rand fuel s1
    | Step.ret r => Run.returned r
    | Step.panic => Run.panicked

/-- The state in which `HillClimb` enters its loop. -/
def initState (pieces : List Piece) : State :=
  ⟨NewBoard pieces.length, pieces, 0, 0⟩

/-- Go function `func HillClimb(pieces []Piece, decision Decision, stepLimit int, showPath bool)`
with `showPath` off, run for at most `fuel` iterations. -/
def HillClimb (pieces : List Piece) (decision : Decision) (stepLimit : Int)
    (rand : Nat → Nat) (fuel : Nat) : Run :=
  HillClimbLoop decision stepLimit rand fuel (initState pieces)

/-- The state at the start of iteration `i` (counted from 0) of a run, when
the run gets that far. -/
def stateAt (decision : Decision) (stepLimit : Int) (rand : Nat → Nat) (pieces : List Piece) :
    Nat → Option State
  | 0 => some (initState pieces)
  | i + 1 =>
    match stateAt decision stepLimit rand pieces i with
    | none => none
    | some s =>
      match HillClimbIter decision stepLimit rand s with
      | Step.next s1 => some s1
      | _ => none

/-- Go function `func NoSideWays(inputs ...int) bool`. -/
def NoSideWays : Decision := fun inputs =>
  match inputs[1]? with
  | none => none
  | some new =>
    match inputs[0]? with
    | none => none
    | some cur => if new < cur then some true else some false

/-- Go function `func SideWays(inputs ...int) bool`. -/
def SideWays : Decision := fun inputs =>
  match inputs[0]? with
  | none => none
  | some cur =>
    if cur = 0 then some false
    else
      match inputs[1]? with
      | none => none
      | some new =>
        if new = 0 then some false
        else if new < cur then some true
        else
          match inputs[2]? with
          | none => none
          | some stepCount =>
            match inputs[3]? with
            | none => none
            | some stepLimit => if stepCount = stepLimit then some false else some true

/-! ## Specification-side notions -/

/-- Two pieces conflict: same row, same column, or a common diagonal. -/
def conflicts (p q : Piece) : Prop :=
  q.y = p.y ∨ q.x = p.x ∨ |q.y - p.y| = |q.x - p.x|

instance (p q : Piece) : Decidable (conflicts p q) := by
  unfold conflicts; infer_instance

/-- The test that the loop of `QueenHeuristic` applies to `piece`: same column,
same row, or a successful `CheckDiagonal`. -/
def threatens (p piece : Piece) : Prop :=
  p.x = piece.x ∨ p.y = piece.y ∨ CheckDiagonal p piece = 1

instance (p q : Piece) : Decidable (threatens p q) := by
  unfold threatens; infer_instance

/-- Both coordinates of the piece lie in `[-2^62, 2^62)`, as every board
coordinate does. -/
def coordBounded (p : Piece) : Prop :=
  -4611686018427387904 ≤ p.x ∧ p.x < 4611686018427387904 ∧
    -4611686018427387904 ≤ p.y ∧ p.y < 4611686018427387904

instance (p : Piece) : Decidable (coordBounded p) := by
  unfold coordBounded; infer_instance

/-- Two pieces at the far ends of the 64-bit range: `(-1, 2^63 - 1)` and
`(0, -2^63)`. Their rows differ by `2^64 - 1`, their columns by 1. -/
def wrapPair : List Piece :=
  [⟨-1, 9223372036854775807⟩, ⟨0, -9223372036854775808⟩]

/-- The pieces at indices `i` and `j` of a placement both exist and conflict. -/
def conflictAt (pieces : List Piece) (i j : Nat) : Prop :=
  match pieces[i]?, pieces[j]? with
  | some p, some q => conflicts p q
  | _, _ => False

instance (pieces : List Piece) (i j : Nat) : Decidable (conflictAt pieces i j) := by
  unfold conflictAt; split <;> infer_instance

/-- The conflicting index pairs `i < j` of a placement. -/
def conflictPairs (pieces : List Piece) : Finset (Nat × Nat) :=
  (Finset.range pieces.length ×ˢ Finset.range pieces.length).filter
    (fun ij => ij.1 < ij.2 ∧ conflictAt pieces ij.1 ij.2)

/-- A placement as `HillClimb` expects it: pairwise distinct columns and all
coordinates in `[0, n)` for `n` the number of pieces. -/
def ValidPlacement (pieces : List Piece) : Prop :=
  (pieces.map (fun p => p.x)).Nodup ∧
    ∀ p ∈ pieces, 0 ≤ p.x ∧ p.x < (pieces.length : Int) ∧ 0 ≤ p.y ∧ p.y < (pieces.length : Int)

instance (pieces : List Piece) : Decidable (ValidPlacement pieces) := by
  unfold ValidPlacement; infer_instance

/-- A board of `n` rows of `n` cells. -/
def SquareBoard (n : Nat) (b : Board) : Prop :=
  b.length = n ∧ ∀ row ∈ b, row.length = n

instance (n : Nat) (b : Board) : Decidable (SquareBoard n b) := by
  unfold SquareBoard; infer_instance

/-- The placement in which only the piece at slice position `i` has its row
replaced by `r`. -/
def moveRow (pieces : List Piece) (i : Nat) (r : Int) : List Piece :=
  match pieces[i]? with
  | some p => pieces.set i ⟨p.x, r⟩
  | none => pieces

/-- The cells `(p.x, r)` with `r` in `[0, n)` other than the row of `p`. -/
def rowMoves (n : Nat) (p : Piece) : List Piece :=
  ((List.range n).filter (fun (y : Nat) => decide ((y : Int) ≠ p.y))).map
    (fun (y : Nat) => (⟨p.x, (y : Int)⟩ : Piece))

/-- The cells `(c, r)` where `c` is a piece's column and `r` in `[0, n)`
differs from that piece's current row. -/
def moveCells (pieces : List Piece) : List Piece :=
  pieces.flatMap (rowMoves pieces.length)

/-! ## A run that passes the step limit

A four-queens scenario for the `SideWays` policy with `stepLimit = 1000`: the
placement `plateauA` has heuristic 2 and no improving move, its sideways
neighbour `plateauB` has an improving move to `plateauC`, which has heuristic 1
and again no improving move. -/

/-- The placement `[(0,0), (1,1), (2,3), (3,2)]`. -/
def plateauA : List Piece := [⟨0, 0⟩, ⟨1, 1⟩, ⟨2, 3⟩, ⟨3, 2⟩]

/-- The placement `plateauA` with the piece of column 0 moved to row 3. -/
def plateauB : List Piece := [⟨0, 3⟩, ⟨1, 1⟩, ⟨2, 3⟩, ⟨3, 2⟩]

/-- The placement `plateauB` with the piece of column 2 moved to row 0. -/
def plateauC : List Piece := [⟨0, 3⟩, ⟨1, 1⟩, ⟨2, 0⟩, ⟨3, 2⟩]

/-- What an iteration on `plateauA` has computed at `FindMinMoves`'s result. -/
def scanA : Scan :=
  ⟨[[2, 2, 2, 4], [3, 3, 4, 2], [3, 2, 3, 2], [2, 3, 3, 2]], plateauA, 2,
    [⟨0, 0⟩, ⟨0, 3⟩, ⟨1, 1⟩, ⟨1, 3⟩, ⟨2, 3⟩, ⟨3, 0⟩, ⟨3, 1⟩, ⟨3, 2⟩], 2⟩

/-- What an iteration on `plateauB` has computed at `FindMinMoves`'s result. -/
def scanB : Scan :=
  ⟨[[2, 4, 2, 4], [3, 5, 2, 2], [3, 2, 3, 2], [2, 3, 1, 2]], plateauB, 2, [⟨2, 0⟩], 1⟩

/-- What an iteration on `plateauC` has computed at `FindMinMoves`'s result. -/
def scanC : Scan :=
  ⟨[[1, 1, 2, 3], [4, 2, 2, 1], [2, 1, 3, 3], [3, 2, 1, 3]], plateauC, 1,
    [⟨0, 3⟩, ⟨1, 1⟩, ⟨1, 3⟩, ⟨2, 0⟩, ⟨3, 2⟩], 1⟩

/-- A tie-break sequence: every draw is 0 except the draw of iteration 999,
which is 1. -/
def lateMove : Nat → Nat := fun k => if k = 998 then 1 else 0

/-- The board at the start of iteration `i` (counted from 0) of the scenario. -/
def plateauBoard (i : Nat) : Board :=
  if i = 0 then NewBoard 4
  else if i ≤ 999 then scanA.board
  else if i = 1000 then scanB.board
  else scanC.board

/-- The placement at the start of iteration `i` (counted from 0) of the scenario. -/
def plateauPieces (i : Nat) : List Piece :=
  if i ≤ 998 then plateauA
  else if i = 999 then plateauB
  else plateauC

/-- The placement slice as an iteration leaves it: that of the next state when
the engine continues, the returned one when it stops; none after a panic. -/
def piecesAfter : Step → Option (List Piece)
  | Step.next s => some s.pieces
  | Step.ret r => some r.pieces
  | Step.panic => none

/-! ## Placement supply and the restart loop (`main.go`) -/

/-- The body of the loop of `RandomPlace` at slice position `i`, on the slice
and the next column `x`: `y := rand.Intn(size)`, the two field assignments
`pieces[i].x = x` and `pieces[i].y = y`, then `x++` with wrap-around. The draw
of position `i` is the raw value `rand (i + 1)`. -/
def placeBody (size : Nat) (rand : Nat → Nat) (i : Nat) (s : List Piece × Int) :
    Option (List Piece × Int) :=
  match Intn (rand (i + 1)) size with
  | none => none
  | some y =>
    match sliceSet s.1 i (⟨s.2, (y : Int)⟩ : Piece) with
    | none => none
    | some pieces1 =>
      let x1 := s.2 + 1
      some (pieces1, if x1 ≥ (size : Int) then 0 else x1)

/-- Go function `func RandomPlace(pieces []Piece) ([]Piece, error)`; `rand k` is
the raw value of its `k`-th random draw, and it makes `len(pieces) + 1` draws. -/
def RandomPlace (rand : Nat → Nat) (pieces : List Piece) : Option (List Piece × Option String) :=
  let size := pieces.length
  match Intn (rand 0) size with
  | none => none
  | some x =>
    match forEach (placeBody size rand) (List.range pieces.length) (pieces, (x : Int)) with
    | none => none
    | some s => some (s.1, none)

/-- Go function `func SetManualPieces(pieces *[]Piece) []Piece`, console output
left out; `entry i` is the piece made of the values of `x` and `y` after the
`i`-th `Scanf`. -/
def SetManualPieces (entry : Nat → Piece) (pieces : List Piece) : Option (List Piece) :=
  forEach (fun i ps => sliceSet ps i (entry i)) (List.range pieces.length) pieces

/-- The variables of `main` that the closure `RunHillClimb` reads and writes
(`printPath` only steers printing and is left out), with the number of random
draws made and of manual placements read so far. -/
structure MainVars where
  pieces : List Piece
  randomRestart : Bool
  randRestartCount : Int
  succSteps : Int
  failSteps : Int
  succPuzzle : Int
  failPuzzle : Int
  draws : Nat
  reads : Nat

/-- The options of `main` that `RunHillClimb` only reads, and its sources of
input: the raw random draws and the manually entered placements. -/
structure Config where
  useManual : Bool
  randomRestartDef : Bool
  decisionFunc : Decision
  stepLimit : Int
  rand : Nat → Nat
  manual : Nat → Nat → Piece

/-- The local variables of `RunHillClimb`, and a trace of the errors returned
by the attempts made so far (the code keeps no such trace; it is carried to
count the attempts). -/
structure Locals where
  steps : Int
  err : Option NoSolution
  totalSteps : Int
  attempts : List (Option NoSolution)

/-- How a piece of code ends within a given number of iterations. -/
inductive Outcome (α : Type) where
  | done (a : α)
  | panicked
  | outOfFuel

/-- The first statement of the loop of `RunHillClimb`: the placement comes from
`RandomPlace` or from `SetManualPieces`. The result holds the slice and the
numbers of random draws made and manual placements read after it. -/
def placePieces (cfg : Config) (m : MainVars) : Option (List Piece × Nat × Nat) :=
  if !cfg.useManual then
    match RandomPlace (fun k => cfg.rand (m.draws + k)) m.pieces with
    | none => none
    | some r => some (r.1, m.draws + (m.pieces.length + 1), m.reads)
  else
    match SetManualPieces (cfg.manual m.reads) m.pieces with
    | none => none
    | some ps => some (ps, m.draws, m.reads + 1)

/-- One attempt of `RunHillClimb`: the placement, then the call of `HillClimb`,
run for at most `climbFuel` iterations. -/
def attemptOnce (cfg : Config) (climbFuel : Nat) (m : MainVars) :
    Outcome (Result × Nat × Nat) :=
  match placePieces cfg m with
  | none => Outcome.panicked
  | some (pieces, draws, reads) =>
    match HillClimb pieces cfg.decisionFunc cfg.stepLimit (fun k => cfg.rand (draws + k))
        climbFuel with
    | Run.panicked => Outcome.panicked
    | Run.outOfFuel => Outcome.outOfFuel
    | Run.returned res => Outcome.done (res, draws, reads)

/-- The `for` loop of `RunHillClimb`, run for at most `fuel` attempts. A
returned run of `HillClimb` has made one random draw per step. -/
def restartLoop (cfg : Config) (climbFuel : Nat) :
    Nat → MainVars × Locals → Outcome (MainVars × Locals)
  | 0, _ => Outcome.outOfFuel
  | fuel + 1, (m, l) =>
    match attemptOnce cfg climbFuel m with
    | Outcome.panicked => Outcome.panicked
    | Outcome.outOfFuel => Outcome.outOfFuel
    | Outcome.done (res, draws, reads) =>
      let totalSteps := l.totalSteps + res.count
      let randomRestart := if res.err = none then false else m.randomRestart
      let l1 : Locals := ⟨res.count, res.err, totalSteps, l.attempts ++ [res.err]⟩
      let m1 : MainVars :=
        { m with pieces := res.pieces, randomRestart := randomRestart,
                 draws := draws + res.count.toNat, reads := reads }
      if !randomRestart then Outcome.done (m1, l1)
      else restartLoop cfg climbFuel fuel
        ({ m1 with randRestartCount := m1.randRestartCount + 1 }, l1)

/-- The closure `RunHillClimb` of `main`, printing left out: the restart loop,
then `randomRestart = randomRestartDef` and the statistics. The second
component is the trace of the errors returned by the attempts. -/
def RunHillClimb (cfg : Config) (climbFuel fuel : Nat) (m : MainVars) :
    Outcome (MainVars × List (Option NoSolution)) :=
  match restartLoop cfg climbFuel fuel (m, ⟨0, none, 0, []⟩) with
  | Outcome.panicked => Outcome.panicked
  | Outcome.outOfFuel => Outcome.outOfFuel
  | Outcome.done (m1, l) =>
    let m2 : MainVars := { m1 with randomRestart := cfg.randomRestartDef }
    if l.err ≠ none then
      Outcome.done
        ({ m2 with failSteps := m2.failSteps + l.steps, failPuzzle := m2.failPuzzle + 1 },
          l.attempts)
    else
      Outcome.done
        ({ m2 with
            succPuzzle := m2.succPuzzle + 1,
            succSteps :=
              if cfg.randomRestartDef then m2.succSteps + l.totalSteps
              else m2.succSteps + l.steps },
          l.attempts)

/-- A restart scenario with manual placements: the first placement entered is
`plateauA`, on which strict descent fails at once, every later one is the
solved placement `[(0,1), (1,3), (2,0), (3,2)]`. -/
def restartDemo : Config :=
  { useManual := true
    randomRestartDef := true
    decisionFunc := NoSideWays
    stepLimit := 1000
    rand := fun _ => 0
    manual := fun k i =>
      (if k = 0 then plateauA else [⟨0, 1⟩, ⟨1, 3⟩, ⟨2, 0⟩, ⟨3, 2⟩]).getD i ⟨0, 0⟩ }

/-- The variables of `main` before its first call of `RunHillClimb` in the
restart scenario, for a board of size 4. -/
def restartDemoVars : MainVars :=
  { pieces := [⟨0, 0⟩, ⟨0, 0⟩, ⟨0, 0⟩, ⟨0, 0⟩]
    randomRestart := true
    randRestartCount := 0
    succSteps := 0
    failSteps := 0
    succPuzzle := 0
    failPuzzle := 0
    draws := 0
    reads := 0 }

/-- The placement step of an attempt, stated on the three things an attempt
depends on (the slice, the number of random draws made, the number of manual
placements read): `RandomPlace` on the next draws when `useManual` is off,
`SetManualPieces` on the next manual placement when it is on. -/
def placedFrom (cfg : Config) (start : List Piece × Nat × Nat) (placed : List Piece)
    (draws reads : Nat) : Prop :=
  (cfg.useManual = false ∧
    (∃ e, RandomPlace (fun k => cfg.rand (start.2.1 + k)) start.1 = some (placed, e)) ∧
    draws = start.2.1 + (start.1.length + 1) ∧ reads = start.2.2) ∨
  (cfg.useManual = true ∧
    SetManualPieces (cfg.manual start.2.2) start.1 = some placed ∧
    draws = start.2.1 ∧ reads = start.2.2 + 1)

/-- The list `results` holds, in order, what consecutive attempts returned:
the first is the result of `HillClimb` (within `climbFuel` iterations) on the
placement made from `start`, each later one the result of `HillClimb` on the
placement made from the slice, draws and reads the previous attempt left; and
`final` is what the last attempt left. -/
def attemptsFrom (cfg : Config) (climbFuel : Nat) :
    List Piece × Nat × Nat → List Result → List Piece × Nat × Nat → Prop
  | start, [], final => final = start
  | start, res :: rest, final =>
    ∃ (placed : List Piece) (draws reads : Nat),
      placedFrom cfg start placed draws reads ∧
      HillClimb placed cfg.decisionFunc cfg.stepLimit (fun k => cfg.rand (draws + k))
        climbFuel = Run.returned res ∧
      attemptsFrom cfg climbFuel (res.pieces, draws + res.count.toNat, reads) rest final

/-! # Theorems -/

/-! ## The conflict heuristic -/

theorem CheckDiagonal_eq (p q : Piece) :
    CheckDiagonal p q =
      if (q.x + (p.y - p.x) - q.y) % 18446744073709551616 = 0 ∨
          (-q.x + (p.y + p.x) - q.y) % 18446744073709551616 = 0
      then 1 else 0 := by
  have h1 : wrapInt (wrapInt (q.x + wrapInt (p.y - p.x)) - q.y) = 0 ↔
      (q.x + (p.y - p.x) - q.y) % 18446744073709551616 = 0 := by
    unfold wrapInt; omega
  have h2 : wrapInt (wrapInt (wrapInt (-q.x) + wrapInt (p.y + p.x)) - q.y) = 0 ↔
      (-q.x + (p.y + p.x) - q.y) % 18446744073709551616 = 0 := by
    unfold wrapInt; omega
  unfold CheckDiagonal
  simp only [h1, h2]
  by_cases c1 : (q.x + (p.y - p.x) - q.y) % 18446744073709551616 = 0
  · simp [c1]
  · by_cases c2 : (-q.x + (p.y + p.x) - q.y) % 18446744073709551616 = 0
    · simp [c2]
    · simp [c1, c2]

theorem CheckDiagonal_eq_one_iff (p q : Piece) :
    CheckDiagonal p q = 1 ↔
      ((q.x + (p.y - p.x) - q.y) % 18446744073709551616 = 0 ∨
        (-q.x + (p.y + p.x) - q.y) % 18446744073709551616 = 0) := by
  rw [CheckDiagonal_eq]
  by_cases c : (q.x + (p.y - p.x) - q.y) % 18446744073709551616 = 0 ∨
      (-q.x + (p.y + p.x) - q.y) % 18446744073709551616 = 0
  · rw [if_pos c]
    exact ⟨fun _ => c, fun _ => rfl⟩
  · rw [if_neg c]
    exact ⟨fun h => absurd h (by decide), fun h => absurd h c⟩

theorem CheckDiagonal_of_ne_one (p q : Piece) (h : ¬ CheckDiagonal p q = 1) :
    CheckDiagonal p q = 0 := by
  rw [CheckDiagonal_eq] at h ⊢
  by_cases c : (q.x + (p.y - p.x) - q.y) % 18446744073709551616 = 0 ∨
      (-q.x + (p.y + p.x) - q.y) % 18446744073709551616 = 0
  · rw [if_pos c] at h; exact absurd rfl h
  · rw [if_neg c]

theorem queenStep_eq (p : Piece) (h : Int) (q : Piece) :
    queenStep p h q = h + if threatens p q then 1 else 0 := by
  unfold queenStep threatens
  by_cases hxy : p.x = q.x ∨ p.y = q.y
  · have ht : p.x = q.x ∨ p.y = q.y ∨ CheckDiagonal p q = 1 := by
      rcases hxy with hx | hy
      · exact Or.inl hx
      · exact Or.inr (Or.inl hy)
    rw [if_pos hxy, if_pos ht]
  · rw [if_neg hxy]
    by_cases hd : CheckDiagonal p q = 1
    · rw [if_pos (Or.inr (Or.inr hd)), hd]
    · have ht : ¬ (p.x = q.x ∨ p.y = q.y ∨ CheckDiagonal p q = 1) := by
        rintro (hx | hy | hd2)
        · exact hxy (Or.inl hx)
        · exact hxy (Or.inr hy)
        · exact hd hd2
      rw [if_neg ht, CheckDiagonal_of_ne_one p q hd]

theorem foldl_queenStep (p : Piece) (l : List Piece) (a : Int) :
    l.foldl (queenStep p) a = a + (l.countP (fun q => decide (threatens p q)) : Nat) := by
  induction l generalizing a with
  | nil => simp
  | cons q l ih =>
    rw [List.foldl_cons, ih, queenStep_eq, List.countP_cons]
    by_cases hc : threatens p q
    · simp [hc]; ring
    · simp [hc]

theorem threatens_symm {p q : Piece} (h : threatens p q) : threatens q p := by
  unfold threatens at h ⊢
  rcases h with h | h | h
  · exact Or.inl h.symm
  · exact Or.inr (Or.inl h.symm)
  · right; right
    rw [CheckDiagonal_eq_one_iff] at h ⊢
    omega

/-- On coordinates in `[-2^62, 2^62)` no wrap-around reaches zero, and the test
of the code is the conflict relation. -/
theorem threatens_iff_conflicts (p q : Piece) (hp : coordBounded p) (hq : coordBounded q) :
    threatens p q ↔ conflicts p q := by
  unfold coordBounded at hp hq
  unfold threatens conflicts
  rw [CheckDiagonal_eq_one_iff, abs_eq_abs]
  constructor
  · rintro (h | h | h | h)
    · exact Or.inr (Or.inl h.symm)
    · exact Or.inl h.symm
    · right; right; left; omega
    · right; right; right; omega
  · rintro (h | h | h | h)
    · exact Or.inr (Or.inl h.symm)
    · exact Or.inl h.symm
    · right; right; left; omega
    · right; right; right; omega

theorem QueenHeuristic_count_conflicts (p : Piece) (l : List Piece) (hp : coordBounded p)
    (hl : ∀ q ∈ l, coordBounded q) :
    p.QueenHeuristic l = ((l.countP (fun q => decide (conflicts p q)) : Nat) : Int) := by
  unfold Piece.QueenHeuristic
  rw [foldl_queenStep, zero_add]
  congr 1
  apply List.countP_congr
  intro q hq
  simp only [decide_eq_true_eq]
  exact threatens_iff_conflicts p q hp (hl q hq)

/-- C1, as the code has it: for a piece `p` and a list `others` whose
coordinates all lie in `[-2^62, 2^62)`, `QueenHeuristic(p, others)` is the
number of elements `q` of `others` that share the row of `p`, share its
column, or satisfy `|q.y - p.y| = |q.x - p.x|`; each element of the list counts
at most once. -/
theorem QueenHeuristic_eq_count (p : Piece) (others : List Piece)
    (hp : coordBounded p) (ho : ∀ q ∈ others, coordBounded q) :
    p.QueenHeuristic others =
      ((others.countP
        (fun q => decide (q.y = p.y ∨ q.x = p.x ∨ |q.y - p.y| = |q.x - p.x|)) : Nat) : Int) := by
  rw [QueenHeuristic_count_conflicts p others hp ho]
  simp [conflicts]

/-- C1 (amended) at the piece `(1,1)` against four pieces, two of which it
conflicts with. -/
theorem QueenHeuristic_eq_count_witness :
    coordBounded ⟨1, 1⟩ ∧
    (∀ q ∈ ([⟨0, 0⟩, ⟨1, 3⟩, ⟨2, 5⟩, ⟨3, 2⟩] : List Piece), coordBounded q) ∧
    (⟨1, 1⟩ : Piece).QueenHeuristic [⟨0, 0⟩, ⟨1, 3⟩, ⟨2, 5⟩, ⟨3, 2⟩] =
      ((([⟨0, 0⟩, ⟨1, 3⟩, ⟨2, 5⟩, ⟨3, 2⟩] : List Piece).countP
        (fun q => decide (q.y = (⟨1, 1⟩ : Piece).y ∨ q.x = (⟨1, 1⟩ : Piece).x ∨
          |q.y - (⟨1, 1⟩ : Piece).y| = |q.x - (⟨1, 1⟩ : Piece).x|)) : Nat) : Int) :=
  ⟨by decide, by decide,
    QueenHeuristic_eq_count ⟨1, 1⟩ [⟨0, 0⟩, ⟨1, 3⟩, ⟨2, 5⟩, ⟨3, 2⟩] (by decide) (by decide)⟩

theorem wrapPair_not_conflicts :
    ¬ conflicts ⟨-1, 9223372036854775807⟩ ⟨0, -9223372036854775808⟩ := by
  unfold conflicts
  rw [abs_eq_abs]
  simp only
  omega

/-- C1 fails as stated: for `p = (-1, 2^63 - 1)` and `others = [(0, -2^63)]` the
difference `p.y - p.x` wraps to `-2^63`, the first intercept test succeeds and
`QueenHeuristic` returns 1, while the element shares neither row nor column
with `p` and `|q.y - p.y| = 2^64 - 1` differs from `|q.x - p.x| = 1`. -/
theorem QueenHeuristic_counts_wrapped_diagonal :
    (⟨-1, 9223372036854775807⟩ : Piece).QueenHeuristic [⟨0, -9223372036854775808⟩] = 1 ∧
    (([⟨0, -9223372036854775808⟩] : List Piece).countP
      (fun q => decide (q.y = (⟨-1, 9223372036854775807⟩ : Piece).y ∨
        q.x = (⟨-1, 9223372036854775807⟩ : Piece).x ∨
        |q.y - (⟨-1, 9223372036854775807⟩ : Piece).y| =
          |q.x - (⟨-1, 9223372036854775807⟩ : Piece).x|))) = 0 := by
  refine ⟨by decide, ?_⟩
  have h := wrapPair_not_conflicts
  unfold conflicts at h
  simp only at h
  rw [List.countP_cons, List.countP_nil]
  simp only [h, decide_False, Bool.false_eq_true, if_false]

/-! ## The aggregate heuristic -/

theorem sumHeuristic_acc (pieces : List Piece) (idxs : List Nat) (h : Int) :
    sumHeuristic pieces idxs h = h + sumHeuristic pieces idxs 0 := by
  unfold sumHeuristic
  induction idxs generalizing h with
  | nil => simp
  | cons i idxs ih =>
    simp only [List.foldl_cons]
    rw [ih]
    conv_rhs => rw [ih]
    cases pieces[i]?
    · simp
    · simp; ring

theorem aggregateHeuristic_nil : aggregateHeuristic [] = 0 := by
  simp [aggregateHeuristic, sumHeuristic]

theorem aggregateHeuristic_cons (p : Piece) (rest : List Piece) :
    aggregateHeuristic (p :: rest) = p.QueenHeuristic rest + aggregateHeuristic rest := by
  have h := sumHeuristic_acc rest (List.range rest.length) (p.QueenHeuristic rest)
  unfold aggregateHeuristic
  rw [List.length_cons, List.range_succ_eq_map]
  unfold sumHeuristic at h ⊢
  simpa [List.foldl_map] using h

theorem conflictAt_cons_succ_succ (p : Piece) (rest : List Piece) (i j : Nat) :
    conflictAt (p :: rest) (i + 1) (j + 1) ↔ conflictAt rest i j := by
  simp [conflictAt]

theorem conflictAt_zero_one (p q : Piece) (rest : List Piece) :
    conflictAt (p :: q :: rest) 0 1 ↔ conflicts p q := by
  simp [conflictAt]

theorem conflictAt_zero_succ_succ (p q : Piece) (rest : List Piece) (j : Nat) :
    conflictAt (p :: q :: rest) 0 (j + 1 + 1) ↔ conflictAt (p :: rest) 0 (j + 1) := by
  simp [conflictAt]

/-- The number of elements of `l` in conflict with `p`, as a sum over indices. -/
theorem countP_conflicts_eq_sum (p : Piece) (l : List Piece) :
    l.countP (fun q => decide (conflicts p q)) =
      ∑ j in Finset.range l.length, if conflictAt (p :: l) 0 (j + 1) then 1 else 0 := by
  induction l with
  | nil => simp
  | cons q l ih =>
    rw [List.length_cons, Finset.sum_range_succ', List.countP_cons, ih]
    simp only [conflictAt_zero_succ_succ, conflictAt_zero_one, decide_eq_true_eq, zero_add]

theorem card_conflictPairs_cons (p : Piece) (rest : List Piece) :
    (conflictPairs (p :: rest)).card =
      rest.countP (fun q => decide (conflicts p q)) + (conflictPairs rest).card := by
  unfold conflictPairs
  rw [Finset.card_filter, Finset.card_filter, Finset.sum_product, Finset.sum_product,
    List.length_cons, Finset.sum_range_succ', countP_conflicts_eq_sum, add_comm]
  congr 1
  · rw [Finset.sum_range_succ']
    simp only [lt_self_iff_false, false_and, if_false, add_zero, Nat.zero_lt_succ, true_and]
  · apply Finset.sum_congr rfl
    intro i _
    rw [Finset.sum_range_succ']
    simp only [Nat.not_lt_zero, false_and, if_false, add_zero, Nat.add_lt_add_iff_right,
      conflictAt_cons_succ_succ]

theorem conflicts_symm {p q : Piece} (h : conflicts p q) : conflicts q p := by
  unfold conflicts at h ⊢
  rcases h with h | h | h
  · exact Or.inl h.symm
  · exact Or.inr (Or.inl h.symm)
  · right; right
    rw [abs_sub_comm p.y q.y, abs_sub_comm p.x q.x]; exact h

theorem conflictAt_iff (pieces : List Piece) (i j : Nat) :
    conflictAt pieces i j ↔
      ∃ (hi : i < pieces.length) (hj : j < pieces.length), conflicts pieces[i] pieces[j] := by
  unfold conflictAt
  by_cases hi : i < pieces.length
  · by_cases hj : j < pieces.length
    · rw [List.getElem?_eq_getElem hi, List.getElem?_eq_getElem hj]
      simp [hi, hj]
    · rw [List.getElem?_eq_getElem hi, List.getElem?_eq_none (Nat.le_of_not_lt hj)]
      simp [hj]
  · rw [List.getElem?_eq_none (Nat.le_of_not_lt hi)]
    simp [hi]

theorem mem_conflictPairs (pieces : List Piece) (i j : Nat) :
    (i, j) ∈ conflictPairs pieces ↔
      i < j ∧ ∃ (hi : i < pieces.length) (hj : j < pieces.length),
        conflicts pieces[i] pieces[j] := by
  unfold conflictPairs
  rw [Finset.mem_filter, conflictAt_iff]
  simp only [Finset.mem_product, Finset.mem_range]
  constructor
  · rintro ⟨_, h1, h2⟩; exact ⟨h1, h2⟩
  · rintro ⟨h1, hi, hj, h2⟩; exact ⟨⟨hi, hj⟩, h1, hi, hj, h2⟩

theorem QueenHeuristic_nonneg (p : Piece) (l : List Piece) : 0 ≤ p.QueenHeuristic l := by
  unfold Piece.QueenHeuristic
  rw [foldl_queenStep, zero_add]
  exact Int.natCast_nonneg _

theorem aggregateHeuristic_nonneg (pieces : List Piece) : 0 ≤ aggregateHeuristic pieces := by
  induction pieces with
  | nil => rw [aggregateHeuristic_nil]
  | cons p rest ih =>
    rw [aggregateHeuristic_cons]
    exact add_nonneg (QueenHeuristic_nonneg p rest) ih

/-- On coordinates in `[-2^62, 2^62)` the aggregate heuristic is the number of
conflicting index pairs. -/
theorem aggregateHeuristic_eq_card (pieces : List Piece)
    (hb : ∀ p ∈ pieces, coordBounded p) :
    aggregateHeuristic pieces = ((conflictPairs pieces).card : Int) := by
  induction pieces with
  | nil => simp [aggregateHeuristic_nil, conflictPairs]
  | cons p rest ih =>
    rw [aggregateHeuristic_cons, card_conflictPairs_cons,
      ih (fun q hq => hb q (List.mem_cons_of_mem _ hq)),
      QueenHeuristic_count_conflicts p rest (hb p (List.mem_cons_self _ _))
        (fun q hq => hb q (List.mem_cons_of_mem _ hq))]
    push_cast
    ring

theorem aggregateHeuristic_eq_zero_iff (pieces : List Piece)
    (hb : ∀ p ∈ pieces, coordBounded p) :
    aggregateHeuristic pieces = 0 ↔
      ∀ (i j : Nat) (hi : i < pieces.length) (hj : j < pieces.length), i ≠ j →
        ¬ conflicts pieces[i] pieces[j] := by
  rw [aggregateHeuristic_eq_card pieces hb, Int.natCast_eq_zero, Finset.card_eq_zero,
    Finset.eq_empty_iff_forall_not_mem]
  constructor
  · intro h i j hi hj hne hc
    rcases Nat.lt_or_gt_of_ne hne with hlt | hlt
    · exact h (i, j) ((mem_conflictPairs pieces i j).mpr ⟨hlt, hi, hj, hc⟩)
    · exact h (j, i) ((mem_conflictPairs pieces j i).mpr ⟨hlt, hj, hi, conflicts_symm hc⟩)
  · rintro h ⟨i, j⟩ hmem
    obtain ⟨hlt, hi, hj, hc⟩ := (mem_conflictPairs pieces i j).mp hmem
    exact h i j hi hj (Nat.ne_of_lt hlt) hc

theorem QueenHeuristic_perm (p : Piece) {l₁ l₂ : List Piece} (h : l₁.Perm l₂) :
    p.QueenHeuristic l₁ = p.QueenHeuristic l₂ := by
  unfold Piece.QueenHeuristic
  rw [foldl_queenStep, foldl_queenStep, h.countP_eq]

theorem QueenHeuristic_cons (p q : Piece) (l : List Piece) :
    p.QueenHeuristic (q :: l) = (if threatens p q then 1 else 0) + p.QueenHeuristic l := by
  unfold Piece.QueenHeuristic
  rw [foldl_queenStep, foldl_queenStep, List.countP_cons]
  by_cases hc : threatens p q
  · simp [hc]; ring
  · simp [hc]

theorem aggregateHeuristic_perm {l₁ l₂ : List Piece} (h : l₁.Perm l₂) :
    aggregateHeuristic l₁ = aggregateHeuristic l₂ := by
  induction h with
  | nil => rfl
  | cons p _ ih => rw [aggregateHeuristic_cons, aggregateHeuristic_cons, ih, QueenHeuristic_perm p ‹_›]
  | swap p q l =>
    rw [aggregateHeuristic_cons, aggregateHeuristic_cons, aggregateHeuristic_cons,
      aggregateHeuristic_cons, QueenHeuristic_cons, QueenHeuristic_cons]
    have hs : (if threatens q p then (1 : Int) else 0) = if threatens p q then 1 else 0 := by
      by_cases hc : threatens p q
      · simp [hc, threatens_symm hc]
      · have hc2 : ¬ threatens q p := fun h2 => hc (threatens_symm h2)
        simp [hc, hc2]
    rw [hs]; ring
  | trans _ _ ih₁ ih₂ => rw [ih₁, ih₂]

/-- C2, as the code has it: for a placement whose coordinates all lie in
`[-2^62, 2^62)`, the aggregate heuristic computed by `HillClimb` equals the
number of index pairs `i < j` whose pieces conflict (same row, same column or
common diagonal); `conflictPairs` holds each such pair exactly once. -/
theorem aggregateHeuristic_counts_conflicting_pairs (pieces : List Piece)
    (hb : ∀ p ∈ pieces, coordBounded p) :
    aggregateHeuristic pieces = ((conflictPairs pieces).card : Int) ∧
    ∀ i j : Nat, (i, j) ∈ conflictPairs pieces ↔
      i < j ∧ ∃ (hi : i < pieces.length) (hj : j < pieces.length),
        (pieces[j].y = pieces[i].y ∨ pieces[j].x = pieces[i].x ∨
          |pieces[j].y - pieces[i].y| = |pieces[j].x - pieces[i].x|) :=
  ⟨aggregateHeuristic_eq_card pieces hb, fun i j => mem_conflictPairs pieces i j⟩

/-- C2 (amended) on the placement `[(0,0), (1,0), (2,1), (3,3)]`. -/
theorem aggregateHeuristic_counts_conflicting_pairs_witness :
    (∀ p ∈ ([⟨0, 0⟩, ⟨1, 0⟩, ⟨2, 1⟩, ⟨3, 3⟩] : List Piece), coordBounded p) ∧
    aggregateHeuristic [⟨0, 0⟩, ⟨1, 0⟩, ⟨2, 1⟩, ⟨3, 3⟩] =
      ((conflictPairs [⟨0, 0⟩, ⟨1, 0⟩, ⟨2, 1⟩, ⟨3, 3⟩]).card : Int) ∧
    ∀ i j : Nat, (i, j) ∈ conflictPairs [⟨0, 0⟩, ⟨1, 0⟩, ⟨2, 1⟩, ⟨3, 3⟩] ↔
      i < j ∧ ∃ (hi : i < ([⟨0, 0⟩, ⟨1, 0⟩, ⟨2, 1⟩, ⟨3, 3⟩] : List Piece).length)
        (hj : j < ([⟨0, 0⟩, ⟨1, 0⟩, ⟨2, 1⟩, ⟨3, 3⟩] : List Piece).length),
        (([⟨0, 0⟩, ⟨1, 0⟩, ⟨2, 1⟩, ⟨3, 3⟩] : List Piece)[j].y =
            ([⟨0, 0⟩, ⟨1, 0⟩, ⟨2, 1⟩, ⟨3, 3⟩] : List Piece)[i].y ∨
          ([⟨0, 0⟩, ⟨1, 0⟩, ⟨2, 1⟩, ⟨3, 3⟩] : List Piece)[j].x =
            ([⟨0, 0⟩, ⟨1, 0⟩, ⟨2, 1⟩, ⟨3, 3⟩] : List Piece)[i].x ∨
          |([⟨0, 0⟩, ⟨1, 0⟩, ⟨2, 1⟩, ⟨3, 3⟩] : List Piece)[j].y -
              ([⟨0, 0⟩, ⟨1, 0⟩, ⟨2, 1⟩, ⟨3, 3⟩] : List Piece)[i].y| =
            |([⟨0, 0⟩, ⟨1, 0⟩, ⟨2, 1⟩, ⟨3, 3⟩] : List Piece)[j].x -
              ([⟨0, 0⟩, ⟨1, 0⟩, ⟨2, 1⟩, ⟨3, 3⟩] : List Piece)[i].x|) :=
  ⟨by decide,
    aggregateHeuristic_counts_conflicting_pairs [⟨0, 0⟩, ⟨1, 0⟩, ⟨2, 1⟩, ⟨3, 3⟩] (by decide)⟩

/-- No two pieces of `wrapPair` at distinct indices conflict. -/
theorem wrapPair_no_conflict (i j : Nat) (hi : i < wrapPair.length) (hj : j < wrapPair.length)
    (hne : i ≠ j) : ¬ conflicts wrapPair[i] wrapPair[j] := by
  have hlen : wrapPair.length = 2 := rfl
  rw [hlen] at hi hj
  have hcases : (i = 0 ∧ j = 1) ∨ (i = 1 ∧ j = 0) := by omega
  rcases hcases with ⟨h0, h1⟩ | ⟨h0, h1⟩
  · subst h0 h1
    exact wrapPair_not_conflicts
  · subst h0 h1
    exact fun h => wrapPair_not_conflicts (conflicts_symm h)

/-- C2 fails as stated: the two pieces of `wrapPair` are in different rows and
columns and on no common diagonal, so no index pair conflicts, but the wrapped
intercept test makes the aggregate heuristic of the code 1. -/
theorem aggregateHeuristic_counts_wrapped_pair :
    aggregateHeuristic wrapPair = 1 ∧ (conflictPairs wrapPair).card = 0 := by
  refine ⟨by decide, ?_⟩
  rw [Finset.card_eq_zero, Finset.eq_empty_iff_forall_not_mem]
  rintro ⟨i, j⟩ hmem
  obtain ⟨hlt, hi, hj, hc⟩ := (mem_conflictPairs wrapPair i j).mp hmem
  exact wrapPair_no_conflict i j hi hj (Nat.ne_of_lt hlt) hc

/-- C3, as the code has it: for a placement whose coordinates all lie in
`[-2^62, 2^62)`, the aggregate heuristic is 0 exactly when no two pieces at
distinct indices share a row, a column or a diagonal. -/
theorem aggregateHeuristic_zero_iff_no_conflict (pieces : List Piece)
    (hb : ∀ p ∈ pieces, coordBounded p) :
    aggregateHeuristic pieces = 0 ↔
      ∀ (i j : Nat) (hi : i < pieces.length) (hj : j < pieces.length), i ≠ j →
        ¬ (pieces[j].y = pieces[i].y ∨ pieces[j].x = pieces[i].x ∨
          |pieces[j].y - pieces[i].y| = |pieces[j].x - pieces[i].x|) :=
  aggregateHeuristic_eq_zero_iff pieces hb

/-- C3 (amended) on the solved placement `[(0,1), (1,3), (2,0), (3,2)]`. -/
theorem aggregateHeuristic_zero_iff_no_conflict_witness :
    (∀ p ∈ ([⟨0, 1⟩, ⟨1, 3⟩, ⟨2, 0⟩, ⟨3, 2⟩] : List Piece), coordBounded p) ∧
    aggregateHeuristic [⟨0, 1⟩, ⟨1, 3⟩, ⟨2, 0⟩, ⟨3, 2⟩] = 0 ∧
    (aggregateHeuristic [⟨0, 1⟩, ⟨1, 3⟩, ⟨2, 0⟩, ⟨3, 2⟩] = 0 ↔
      ∀ (i j : Nat) (hi : i < ([⟨0, 1⟩, ⟨1, 3⟩, ⟨2, 0⟩, ⟨3, 2⟩] : List Piece).length)
        (hj : j < ([⟨0, 1⟩, ⟨1, 3⟩, ⟨2, 0⟩, ⟨3, 2⟩] : List Piece).length), i ≠ j →
        ¬ (([⟨0, 1⟩, ⟨1, 3⟩, ⟨2, 0⟩, ⟨3, 2⟩] : List Piece)[j].y =
            ([⟨0, 1⟩, ⟨1, 3⟩, ⟨2, 0⟩, ⟨3, 2⟩] : List Piece)[i].y ∨
          ([⟨0, 1⟩, ⟨1, 3⟩, ⟨2, 0⟩, ⟨3, 2⟩] : List Piece)[j].x =
            ([⟨0, 1⟩, ⟨1, 3⟩, ⟨2, 0⟩, ⟨3, 2⟩] : List Piece)[i].x ∨
          |([⟨0, 1⟩, ⟨1, 3⟩, ⟨2, 0⟩, ⟨3, 2⟩] : List Piece)[j].y -
              ([⟨0, 1⟩, ⟨1, 3⟩, ⟨2, 0⟩, ⟨3, 2⟩] : List Piece)[i].y| =
            |([⟨0, 1⟩, ⟨1, 3⟩, ⟨2, 0⟩, ⟨3, 2⟩] : List Piece)[j].x -
              ([⟨0, 1⟩, ⟨1, 3⟩, ⟨2, 0⟩, ⟨3, 2⟩] : List Piece)[i].x|)) :=
  ⟨by decide, by decide,
    aggregateHeuristic_zero_iff_no_conflict [⟨0, 1⟩, ⟨1, 3⟩, ⟨2, 0⟩, ⟨3, 2⟩] (by decide)⟩

/-- C3 fails as stated: no two pieces of `wrapPair` at distinct indices share a
row, a column or a diagonal, yet the aggregate heuristic of the code is 1, not
0. -/
theorem aggregateHeuristic_nonzero_without_conflict :
    aggregateHeuristic wrapPair = 1 ∧ aggregateHeuristic wrapPair ≠ 0 ∧
    ∀ (i j : Nat) (hi : i < wrapPair.length) (hj : j < wrapPair.length), i ≠ j →
      ¬ (wrapPair[j].y = wrapPair[i].y ∨ wrapPair[j].x = wrapPair[i].x ∨
        |wrapPair[j].y - wrapPair[i].y| = |wrapPair[j].x - wrapPair[i].x|) :=
  ⟨by decide, by decide, fun i j hi hj hne => wrapPair_no_conflict i j hi hj hne⟩

/-- C4: reordering the pieces of a placement leaves the aggregate heuristic
unchanged. -/
theorem aggregateHeuristic_reorder_invariant (pieces pieces' : List Piece)
    (h : pieces'.Perm pieces) :
    aggregateHeuristic pieces' = aggregateHeuristic pieces :=
  aggregateHeuristic_perm h

/-- C4 at a concrete placement and one of its reorderings. -/
theorem aggregateHeuristic_reorder_invariant_witness :
    List.Perm [(⟨1, 0⟩ : Piece), ⟨0, 0⟩, ⟨2, 1⟩] [⟨0, 0⟩, ⟨1, 0⟩, ⟨2, 1⟩] ∧
    aggregateHeuristic [⟨1, 0⟩, ⟨0, 0⟩, ⟨2, 1⟩] = aggregateHeuristic [⟨0, 0⟩, ⟨1, 0⟩, ⟨2, 1⟩] :=
  ⟨List.Perm.swap _ _ _,
    aggregateHeuristic_reorder_invariant [⟨0, 0⟩, ⟨1, 0⟩, ⟨2, 1⟩] [⟨1, 0⟩, ⟨0, 0⟩, ⟨2, 1⟩]
      (List.Perm.swap _ _ _)⟩

/-! ## The board -/

theorem sliceIndex_of_lt (len : Nat) (i : Nat) (h : i < len) :
    sliceIndex len (i : Int) = some i := by
  unfold sliceIndex
  have h2 : (0 : Int) ≤ i ∧ (i : Int) < len := ⟨Int.natCast_nonneg _, by exact_mod_cast h⟩
  simp [h2]

theorem sliceIndex_row (n : Nat) (y : Nat) (h : y < n) :
    sliceIndex n ((n : Int) - 1 - y) = some (n - 1 - y) := by
  have e : ((n : Int) - 1 - y) = ((n - 1 - y : Nat) : Int) := by omega
  rw [e]
  exact sliceIndex_of_lt n _ (by omega)

theorem Board.Get_eq (n : Nat) (b : Board) (hb : SquareBoard n b) (x y : Nat)
    (hx : x < n) (hy : y < n) :
    ∃ (row : List Int), b[n - 1 - y]? = some row ∧ row.length = n ∧
      ∃ v, row[x]? = some v ∧ Board.Get b x y = some v := by
  obtain ⟨hlen, hrows⟩ := hb
  have hr : n - 1 - y < b.length := by omega
  have hrow : b[n - 1 - y]? = some b[n - 1 - y] := List.getElem?_eq_getElem hr
  have hl : (b[n - 1 - y]).length = n := hrows _ (List.getElem_mem hr)
  have hc : x < (b[n - 1 - y]).length := by omega
  refine ⟨b[n - 1 - y], hrow, hl, (b[n - 1 - y])[x], List.getElem?_eq_getElem hc, ?_⟩
  unfold Board.Get
  rw [hlen, sliceIndex_row n y hy]
  simp only [hrow, hl, sliceIndex_of_lt n x hx]
  exact List.getElem?_eq_getElem hc

theorem Board.Get_unfold (n : Nat) (b : Board) (hb : b.length = n) (x y : Nat)
    (hx : x < n) (hy : y < n) (row : List Int) (hrow : b[n - 1 - y]? = some row)
    (hl : row.length = n) : Board.Get b x y = row[x]? := by
  unfold Board.Get
  rw [hb, sliceIndex_row n y hy]
  simp only [hrow, hl, sliceIndex_of_lt n x hx]

theorem Board.Set_spec (n : Nat) (b : Board) (hb : SquareBoard n b) (x y : Nat)
    (hx : x < n) (hy : y < n) (v : Int) :
    ∃ b', Board.Set b x y v = some b' ∧ SquareBoard n b' ∧
      ∀ x' y' : Nat, x' < n → y' < n →
        Board.Get b' x' y' = if x' = x ∧ y' = y then some v else Board.Get b x' y' := by
  obtain ⟨row, hrow, hl, -⟩ := Board.Get_eq n b hb x y hx hy
  obtain ⟨hlen, hrows⟩ := hb
  have hr : n - 1 - y < b.length := by omega
  refine ⟨b.set (n - 1 - y) (row.set x v), ?_, ⟨?_, ?_⟩, ?_⟩
  · unfold Board.Set
    rw [hlen, sliceIndex_row n y hy]
    simp only [hrow, hl, sliceIndex_of_lt n x hx]
  · simp [hlen]
  · intro r hr2
    rcases List.mem_or_eq_of_mem_set hr2 with h | h
    · exact hrows r h
    · rw [h]; simp [hl]
  · intro x' y' hx' hy'
    have hlen' : (b.set (n - 1 - y) (row.set x v)).length = n := by simp [hlen]
    by_cases hyy : y' = y
    · subst hyy
      have hrow' : (b.set (n - 1 - y') (row.set x v))[n - 1 - y']? = some (row.set x v) := by
        rw [List.getElem?_set_self hr]
      rw [Board.Get_unfold n _ hlen' x' y' hx' hy' _ hrow' (by simp [hl]),
        Board.Get_unfold n b hlen x' y' hx' hy' row hrow hl]
      by_cases hxx : x' = x
      · subst hxx
        simp [List.getElem?_set_self (by omega : x' < row.length)]
      · have hxx2 : ¬ x = x' := fun e => hxx e.symm
        simp [hxx, List.getElem?_set_ne hxx2]
    · have hne : n - 1 - y ≠ n - 1 - y' := by omega
      obtain ⟨row2, hrow2, hl2, -⟩ := Board.Get_eq n b ⟨hlen, hrows⟩ x' y' hx' hy'
      have hrow' : (b.set (n - 1 - y) (row.set x v))[n - 1 - y']? = some row2 := by
        rw [List.getElem?_set_ne hne]; exact hrow2
      rw [Board.Get_unfold n _ hlen' x' y' hx' hy' _ hrow' hl2,
        Board.Get_unfold n b hlen x' y' hx' hy' row2 hrow2 hl2]
      simp [hyy]

theorem Board.Set_spec_int (n : Nat) (b : Board) (hb : SquareBoard n b) (x y : Int)
    (hx : 0 ≤ x ∧ x < (n : Int)) (hy : 0 ≤ y ∧ y < (n : Int)) (v : Int) :
    ∃ b', Board.Set b x y v = some b' ∧ SquareBoard n b' ∧
      ∀ x' y' : Int, 0 ≤ x' ∧ x' < (n : Int) → 0 ≤ y' ∧ y' < (n : Int) →
        Board.Get b' x' y' = if x' = x ∧ y' = y then some v else Board.Get b x' y' := by
  obtain ⟨hx0, hx1⟩ := hx
  obtain ⟨hy0, hy1⟩ := hy
  lift x to ℕ using hx0
  lift y to ℕ using hy0
  obtain ⟨b', h1, h2, h3⟩ :=
    Board.Set_spec n b hb x y (by exact_mod_cast hx1) (by exact_mod_cast hy1) v
  refine ⟨b', h1, h2, ?_⟩
  rintro x' y' ⟨hx0', hx1'⟩ ⟨hy0', hy1'⟩
  lift x' to ℕ using hx0'
  lift y' to ℕ using hy0'
  rw [h3 x' y' (by exact_mod_cast hx1') (by exact_mod_cast hy1')]
  simp only [Nat.cast_inj]

theorem Board.Get_some_int (n : Nat) (b : Board) (hb : SquareBoard n b) (x y : Int)
    (hx : 0 ≤ x ∧ x < (n : Int)) (hy : 0 ≤ y ∧ y < (n : Int)) :
    ∃ v, Board.Get b x y = some v := by
  obtain ⟨hx0, hx1⟩ := hx
  obtain ⟨hy0, hy1⟩ := hy
  lift x to ℕ using hx0
  lift y to ℕ using hy0
  obtain ⟨_, _, _, v, _, hv⟩ :=
    Board.Get_eq n b hb x y (by exact_mod_cast hx1) (by exact_mod_cast hy1)
  exact ⟨v, hv⟩

theorem squareBoard_NewBoard (n : Nat) : SquareBoard n (NewBoard n) := by
  unfold SquareBoard NewBoard
  refine ⟨by simp, ?_⟩
  intro row hrow
  rw [List.eq_of_mem_replicate hrow]
  simp

/-! ## Loop invariants -/

theorem forEach_append {ι σ : Type} (body : ι → σ → Option σ) (l₁ l₂ : List ι) (s : σ) :
    forEach body (l₁ ++ l₂) s =
      match forEach body l₁ s with
      | none => none
      | some s1 => forEach body l₂ s1 := by
  induction l₁ generalizing s with
  | nil => rfl
  | cons i l₁ ih =>
    simp only [List.cons_append, forEach]
    cases body i s with
    | none => rfl
    | some s1 => exact ih s1

/-- A loop whose body never panics under the invariant runs to completion
and establishes the invariant for the whole list; the invariant is indexed
by the part of the list already processed. -/
theorem forEach_invariant {ι σ : Type} (body : ι → σ → Option σ) (Inv : List ι → σ → Prop)
    (l : List ι) (s0 : σ) (h0 : Inv [] s0)
    (hstep : ∀ (done : List ι) (i : ι) (s : σ), i ∈ l → Inv done s →
      ∃ s', body i s = some s' ∧ Inv (done ++ [i]) s') :
    ∃ s', forEach body l s0 = some s' ∧ Inv l s' := by
  have gen : ∀ (rest done : List ι) (s : σ), (∀ i ∈ rest, i ∈ l) → Inv done s →
      ∃ s', forEach body rest s = some s' ∧ Inv (done ++ rest) s' := by
    intro rest
    induction rest with
    | nil =>
      intro done s _ hs
      exact ⟨s, rfl, by simpa using hs⟩
    | cons i rest ih =>
      intro done s hmem hs
      obtain ⟨s1, hb, hs1⟩ := hstep done i s (hmem i (List.mem_cons_self _ _)) hs
      obtain ⟨s2, hf, hs2⟩ := ih (done ++ [i]) s1
        (fun j hj => hmem j (List.mem_cons_of_mem _ hj)) hs1
      refine ⟨s2, ?_, by simpa using hs2⟩
      simp only [forEach, hb]
      exact hf
  simpa using gen l [] s0 (fun _ h => h) h0

/-! ## Storing the current heuristic -/

theorem setCurrent_spec (n : Nat) (h : Int) (ps : List Piece)
    (hps : ∀ p ∈ ps, (0 ≤ p.x ∧ p.x < (n : Int)) ∧ (0 ≤ p.y ∧ p.y < (n : Int)))
    (b : Board) (hb : SquareBoard n b) :
    ∃ b', setCurrent h ps b = some b' ∧ SquareBoard n b' ∧
      ∀ x y : Int, 0 ≤ x ∧ x < (n : Int) → 0 ≤ y ∧ y < (n : Int) →
        Board.Get b' x y = if ∃ p ∈ ps, p.x = x ∧ p.y = y then some h else Board.Get b x y := by
  unfold setCurrent
  refine forEach_invariant (fun (p : Piece) (b : Board) => Board.Set b p.x p.y h)
    (fun done b' => SquareBoard n b' ∧
      ∀ x y : Int, 0 ≤ x ∧ x < (n : Int) → 0 ≤ y ∧ y < (n : Int) →
        Board.Get b' x y =
          if ∃ p ∈ done, p.x = x ∧ p.y = y then some h else Board.Get b x y)
    ps b ?_ ?_
  · exact ⟨hb, by simp⟩
  · rintro done p b1 hp ⟨hsq, hget⟩
    obtain ⟨b2, hset, hsq2, hget2⟩ :=
      Board.Set_spec_int n b1 hsq p.x p.y (hps p hp).1 (hps p hp).2 h
    refine ⟨b2, hset, hsq2, ?_⟩
    intro x y hx hy
    rw [hget2 x y hx hy, hget x y hx hy]
    by_cases hxy : x = p.x ∧ y = p.y
    · have : ∃ q ∈ done ++ [p], q.x = x ∧ q.y = y :=
        ⟨p, by simp, hxy.1.symm, hxy.2.symm⟩
      rw [if_pos hxy, if_pos this]
    · rw [if_neg hxy]
      by_cases hd : ∃ q ∈ done, q.x = x ∧ q.y = y
      · have : ∃ q ∈ done ++ [p], q.x = x ∧ q.y = y := by
          obtain ⟨q, hq, hq2⟩ := hd
          exact ⟨q, by simp [hq], hq2⟩
        rw [if_pos hd, if_pos this]
      · have : ¬ ∃ q ∈ done ++ [p], q.x = x ∧ q.y = y := by
          rintro ⟨q, hq, hq2⟩
          rcases List.mem_append.mp hq with hq | hq
          · exact hd ⟨q, hq, hq2⟩
          · rw [List.mem_singleton] at hq
            subst hq
            exact hxy ⟨hq2.1.symm, hq2.2.symm⟩
        rw [if_neg hd, if_neg this]

/-! ## Move enumeration -/

theorem set_set_getElem? {α : Type} (l : List α) (i : Nat) (a b : α)
    (h : l[i]? = some b) : (l.set i a).set i b = l := by
  rw [List.set_set]
  apply List.ext_getElem?
  intro j
  by_cases hij : i = j
  · subst hij
    by_cases hl : i < l.length
    · rw [List.getElem?_set_self hl, h]
    · rw [List.getElem?_eq_none (by simpa using hl)] at h; cases h
  · rw [List.getElem?_set_ne hij]

/-- The cells that the inner loop records for the piece `piece`, in order. -/
theorem moveBody_spec (n : Nat) (pieces : List Piece) (hn : pieces.length = n)
    (x : Nat) (piece : Piece) (hpx : pieces[x]? = some piece)
    (hcol : 0 ≤ piece.x ∧ piece.x < (n : Int))
    (board0 : Board) (log0 : List Piece) (hb0 : SquareBoard n board0) :
    ∃ b', forEach (moveBody x piece) (List.range n) (board0, pieces, log0) =
        some (b', pieces,
          log0 ++ ((List.range n).filter (fun (y : Nat) => decide ((y : Int) ≠ piece.y))).map
            (fun (y : Nat) => (⟨piece.x, (y : Int)⟩ : Piece))) ∧
      SquareBoard n b' ∧
      ∀ x' y' : Int, 0 ≤ x' ∧ x' < (n : Int) → 0 ≤ y' ∧ y' < (n : Int) →
        Board.Get b' x' y' =
          if x' = piece.x ∧ y' ≠ piece.y
          then some (aggregateHeuristic (pieces.set x ⟨piece.x, y'⟩))
          else Board.Get board0 x' y' := by
  obtain ⟨s', hrun, hsq, hps, hlog, hget⟩ := forEach_invariant (moveBody x piece)
    (fun done s => SquareBoard n s.1 ∧ s.2.1 = pieces ∧
      s.2.2 = log0 ++ (done.filter (fun (y : Nat) => decide ((y : Int) ≠ piece.y))).map
            (fun (y : Nat) => (⟨piece.x, (y : Int)⟩ : Piece)) ∧
      ∀ x' y' : Int, 0 ≤ x' ∧ x' < (n : Int) → 0 ≤ y' ∧ y' < (n : Int) →
        Board.Get s.1 x' y' =
          if x' = piece.x ∧ y' ≠ piece.y ∧ ∃ y ∈ done, (y : Int) = y'
          then some (aggregateHeuristic (pieces.set x ⟨piece.x, y'⟩))
          else Board.Get board0 x' y')
    (List.range n) (board0, pieces, log0)
    ⟨hb0, rfl, by simp, by simp⟩
    (by
      rintro done y ⟨b1, ps1, log1⟩ hy ⟨hsq, hps, hlog, hget⟩
      simp only at hsq hps hlog hget
      subst hps
      have hyn : y < n := List.mem_range.mp hy
      unfold moveBody
      by_cases hyp : (y : Int) ≠ piece.y
      · obtain ⟨b2, hset, hsq2, hget2⟩ := Board.Set_spec_int n b1 hsq piece.x y hcol
          ⟨Int.natCast_nonneg _, by exact_mod_cast hyn⟩
          (aggregateHeuristic (ps1.set x ⟨piece.x, (y : Int)⟩))
        refine ⟨(b2, ps1, log1 ++ [⟨piece.x, (y : Int)⟩]), ?_, hsq2, rfl, ?_, ?_⟩
        · rw [if_pos hyp]
          simp only [hset, set_set_getElem? ps1 x _ _ hpx]
        · simp [hlog, List.filter_append, hyp]
        · intro x' y' hx' hy'
          rw [hget2 x' y' hx' hy', hget x' y' hx' hy']
          by_cases hc : x' = piece.x ∧ y' = (y : Int)
          · obtain ⟨hc1, hc2⟩ := hc
            subst hc2
            have : x' = piece.x ∧ (y : Int) ≠ piece.y ∧ ∃ z ∈ done ++ [y], (z : Int) = (y : Int) :=
              ⟨hc1, hyp, y, by simp, rfl⟩
            rw [if_pos ⟨hc1, rfl⟩, if_pos this]
          · rw [if_neg hc]
            by_cases hd : x' = piece.x ∧ y' ≠ piece.y ∧ ∃ z ∈ done, (z : Int) = y'
            · have : x' = piece.x ∧ y' ≠ piece.y ∧ ∃ z ∈ done ++ [y], (z : Int) = y' := by
                obtain ⟨h1, h2, z, hz, hz2⟩ := hd
                exact ⟨h1, h2, z, by simp [hz], hz2⟩
              rw [if_pos hd, if_pos this]
            · have : ¬ (x' = piece.x ∧ y' ≠ piece.y ∧ ∃ z ∈ done ++ [y], (z : Int) = y') := by
                rintro ⟨h1, h2, z, hz, hz2⟩
                rcases List.mem_append.mp hz with hz | hz
                · exact hd ⟨h1, h2, z, hz, hz2⟩
                · rw [List.mem_singleton] at hz
                  subst hz
                  exact hc ⟨h1, hz2.symm⟩
              rw [if_neg hd, if_neg this]
      · refine ⟨(b1, ps1, log1), ?_, hsq, rfl, ?_, ?_⟩
        · rw [if_neg hyp]
        · simp [hlog, List.filter_append, hyp]
        · intro x' y' hx' hy'
          rw [hget x' y' hx' hy']
          have hyp2 : (y : Int) = piece.y := not_not.mp hyp
          have : (x' = piece.x ∧ y' ≠ piece.y ∧ ∃ z ∈ done ++ [y], (z : Int) = y') ↔
              (x' = piece.x ∧ y' ≠ piece.y ∧ ∃ z ∈ done, (z : Int) = y') := by
            constructor
            · rintro ⟨h1, h2, z, hz, hz2⟩
              rcases List.mem_append.mp hz with hz | hz
              · exact ⟨h1, h2, z, hz, hz2⟩
              · rw [List.mem_singleton] at hz
                subst hz
                exact absurd (hz2.symm.trans hyp2) h2
            · rintro ⟨h1, h2, z, hz, hz2⟩
              exact ⟨h1, h2, z, by simp [hz], hz2⟩
          simp only [this])
  obtain ⟨b', ps', log'⟩ := s'
  simp only at hsq hps hlog hget
  subst hps hlog
  refine ⟨b', hrun, hsq, ?_⟩
  intro x' y' hx' hy'
  rw [hget x' y' hx' hy']
  have : (∃ z ∈ List.range n, (z : Int) = y') := by
    obtain ⟨hy0, hy1⟩ := hy'
    lift y' to ℕ using hy0
    exact ⟨y', List.mem_range.mpr (by exact_mod_cast hy1), rfl⟩
  simp only [this, and_true]

theorem flatMap_range_getElem? {α β : Type} (l : List α) (f : α → List β) :
    (List.range l.length).flatMap (fun i => (l[i]?).elim [] f) = l.flatMap f := by
  induction l with
  | nil => rfl
  | cons a l ih =>
    rw [List.length_cons, List.range_succ_eq_map, List.flatMap_cons, List.flatMap_cons,
      List.flatMap_map]
    simp only [List.getElem?_cons_zero, List.getElem?_cons_succ, Option.elim_some]
    rw [ih]

theorem enumerateMoves_spec (n : Nat) (pieces : List Piece) (hn : pieces.length = n)
    (hrange : ∀ p ∈ pieces, (0 ≤ p.x ∧ p.x < (n : Int)) ∧ (0 ≤ p.y ∧ p.y < (n : Int)))
    (hinj : ∀ (i j : Nat) (p q : Piece), pieces[i]? = some p → pieces[j]? = some q →
      p.x = q.x → i = j)
    (board0 : Board) (hb0 : SquareBoard n board0) :
    ∃ b', enumerateMoves board0 pieces = some (b', pieces, moveCells pieces) ∧
      SquareBoard n b' ∧
      (∀ (i : Nat) (p : Piece), pieces[i]? = some p →
        ∀ y' : Int, 0 ≤ y' ∧ y' < (n : Int) → y' ≠ p.y →
          Board.Get b' p.x y' = some (aggregateHeuristic (pieces.set i ⟨p.x, y'⟩))) ∧
      (∀ x' y' : Int, 0 ≤ x' ∧ x' < (n : Int) → 0 ≤ y' ∧ y' < (n : Int) →
        (∀ (i : Nat) (p : Piece), pieces[i]? = some p → ¬ (x' = p.x ∧ y' ≠ p.y)) →
          Board.Get b' x' y' = Board.Get board0 x' y') := by
  obtain ⟨s', hrun, hsq, hps, hlog, ha, hb⟩ := forEach_invariant columnBody
    (fun done s => SquareBoard n s.1 ∧ s.2.1 = pieces ∧
      s.2.2 = done.flatMap (fun i => (pieces[i]?).elim [] (rowMoves n)) ∧
      (∀ i ∈ done, ∀ (p : Piece), pieces[i]? = some p →
        ∀ y' : Int, 0 ≤ y' ∧ y' < (n : Int) → y' ≠ p.y →
          Board.Get s.1 p.x y' = some (aggregateHeuristic (pieces.set i ⟨p.x, y'⟩))) ∧
      (∀ x' y' : Int, 0 ≤ x' ∧ x' < (n : Int) → 0 ≤ y' ∧ y' < (n : Int) →
        (∀ i ∈ done, ∀ (p : Piece), pieces[i]? = some p → ¬ (x' = p.x ∧ y' ≠ p.y)) →
          Board.Get s.1 x' y' = Board.Get board0 x' y'))
    (List.range n) (board0, pieces, [])
    ⟨hb0, rfl, rfl, by simp, by simp⟩
    (by
      rintro done i ⟨b1, ps1, log1⟩ hi ⟨hsq, hps, hlog, ha, hb⟩
      simp only at hsq hps hlog ha hb
      subst hps
      have hin : i < ps1.length := by rw [hn]; exact List.mem_range.mp hi
      have hpi : ps1[i]? = some ps1[i] := List.getElem?_eq_getElem hin
      have hmem : ps1[i] ∈ ps1 := List.getElem_mem hin
      obtain ⟨b2, hrun, hsq2, hget⟩ := moveBody_spec n ps1 hn i ps1[i] hpi
        (hrange _ hmem).1 b1 log1 hsq
      refine ⟨(b2, ps1, log1 ++ rowMoves n ps1[i]), ?_, hsq2, rfl, ?_, ?_, ?_⟩
      · unfold columnBody
        simp only [hpi, hn]
        exact hrun
      · simp only [hlog, List.flatMap_append, List.flatMap_cons, List.flatMap_nil, hpi,
          List.append_nil, Option.elim_some]
      · intro j hj q hq y' hy' hne
        have hqx : 0 ≤ q.x ∧ q.x < (n : Int) := (hrange q (List.getElem?_mem hq)).1
        rw [hget q.x y' hqx hy']
        by_cases hc : q.x = ps1[i].x
        · have hji : j = i := hinj j i q ps1[i] hq hpi hc
          subst hji
          have hqe : q = ps1[j] := by rw [hpi] at hq; exact (Option.some.inj hq).symm
          subst hqe
          rw [if_pos ⟨rfl, hne⟩]
        · have hjd : j ∈ done := by
            rcases List.mem_append.mp hj with h | h
            · exact h
            · rw [List.mem_singleton] at h
              subst h
              rw [hpi] at hq
              exact absurd (congrArg Piece.x (Option.some.inj hq)).symm hc
          rw [if_neg (fun h => hc h.1)]
          exact ha j hjd q hq y' hy' hne
      · intro x' y' hx' hy' hno
        rw [hget x' y' hx' hy', if_neg (hno i (by simp) ps1[i] hpi)]
        exact hb x' y' hx' hy' (fun j hj q hq => hno j (by simp [hj]) q hq))
  obtain ⟨b', ps', log'⟩ := s'
  simp only at hsq hps hlog ha hb
  subst hps
  refine ⟨b', ?_, hsq, ?_, ?_⟩
  · unfold enumerateMoves
    have hflat := flatMap_range_getElem? ps' (rowMoves ps'.length)
    rw [hn, hrun, hlog]
    unfold moveCells
    subst hn
    exact congrArg (fun l => some (b', ps', l)) hflat
  · intro i p hp
    have hi : i < ps'.length := by
      by_contra hlt
      rw [List.getElem?_eq_none (Nat.le_of_not_lt hlt)] at hp
      cases hp
    exact ha i (List.mem_range.mpr (hn ▸ hi)) p hp
  · intro x' y' hx' hy' hno
    exact hb x' y' hx' hy' (fun i _ p hp => hno i p hp)

/-! ## Valid placements -/

theorem ValidPlacement.inj {pieces : List Piece} (hv : ValidPlacement pieces)
    (i j : Nat) (p q : Piece) (hp : pieces[i]? = some p) (hq : pieces[j]? = some q)
    (hx : p.x = q.x) : i = j := by
  have hi : i < (pieces.map (fun p => p.x)).length := by
    rw [List.length_map]
    by_contra hlt
    rw [List.getElem?_eq_none (Nat.le_of_not_lt hlt)] at hp
    cases hp
  apply List.getElem?_inj hi hv.1
  rw [List.getElem?_map, List.getElem?_map, hp, hq]
  simp [hx]

theorem ValidPlacement.range {pieces : List Piece} (hv : ValidPlacement pieces) :
    ∀ p ∈ pieces, (0 ≤ p.x ∧ p.x < (pieces.length : Int)) ∧
      (0 ≤ p.y ∧ p.y < (pieces.length : Int)) :=
  fun p hp => ⟨⟨(hv.2 p hp).1, (hv.2 p hp).2.1⟩, ⟨(hv.2 p hp).2.2.1, (hv.2 p hp).2.2.2⟩⟩

/-- Every column of the board holds a piece of a valid placement. -/
theorem ValidPlacement.column {pieces : List Piece} (hv : ValidPlacement pieces)
    (c : Int) (hc : 0 ≤ c ∧ c < (pieces.length : Int)) :
    ∃ (i : Nat) (p : Piece), pieces[i]? = some p ∧ p.x = c := by
  have hsub : (pieces.map (fun p => p.x)).toFinset ⊆ Finset.Ico (0 : Int) pieces.length := by
    intro a ha
    rw [List.mem_toFinset, List.mem_map] at ha
    obtain ⟨p, hp, rfl⟩ := ha
    exact Finset.mem_Ico.mpr ⟨(hv.2 p hp).1, (hv.2 p hp).2.1⟩
  have hcard : (Finset.Ico (0 : Int) pieces.length).card ≤
      (pieces.map (fun p => p.x)).toFinset.card := by
    rw [List.toFinset_card_of_nodup hv.1, Int.card_Ico]
    simp
  have heq := Finset.eq_of_subset_of_card_le hsub hcard
  have hmem : c ∈ (pieces.map (fun p => p.x)).toFinset := by
    rw [heq]; exact Finset.mem_Ico.mpr hc
  rw [List.mem_toFinset, List.mem_map] at hmem
  obtain ⟨p, hp, hpx⟩ := hmem
  obtain ⟨i, hi⟩ := List.getElem?_of_mem hp
  exact ⟨i, p, hi, hpx⟩

/-! ## The cells of the candidate moves -/

theorem mem_rowMoves (n : Nat) (p c : Piece) :
    c ∈ rowMoves n p ↔ c.x = p.x ∧ 0 ≤ c.y ∧ c.y < (n : Int) ∧ c.y ≠ p.y := by
  unfold rowMoves
  simp only [List.mem_map, List.mem_filter, List.mem_range, decide_eq_true_eq]
  constructor
  · rintro ⟨y, ⟨hy, hne⟩, rfl⟩
    exact ⟨rfl, Int.natCast_nonneg _, by show (y : Int) < n; exact_mod_cast hy, hne⟩
  · rintro ⟨hx, hy0, hy1, hne⟩
    obtain ⟨cx, cy⟩ := c
    simp only at hx hy0 hy1 hne
    lift cy to ℕ using hy0
    exact ⟨cy, ⟨by exact_mod_cast hy1, hne⟩, by rw [hx]⟩

theorem nodup_rowMoves (n : Nat) (p : Piece) : (rowMoves n p).Nodup := by
  unfold rowMoves
  apply List.Nodup.map
  · intro a b hab
    simpa using hab
  · exact List.Nodup.filter _ (List.nodup_range n)

theorem length_rowMoves (n : Nat) (p : Piece) (hy : 0 ≤ p.y ∧ p.y < (n : Int)) :
    (rowMoves n p).length = n - 1 := by
  obtain ⟨px, py⟩ := p
  obtain ⟨hy0, hy1⟩ := hy
  simp only at hy0 hy1
  lift py to ℕ using hy0
  have hlt : py < n := by exact_mod_cast hy1
  unfold rowMoves
  rw [List.length_map]
  have hfil : (List.range n).filter (fun (y : Nat) => decide ((y : Int) ≠ (py : Int))) =
      (List.range n).erase py := by
    rw [(List.nodup_range n).erase_eq_filter]
    apply List.filter_congr
    intro y _
    by_cases h : y = py
    · subst h; simp
    · have h2 : ¬ ((y : Int) = (py : Int)) := by exact_mod_cast h
      simp [h, h2]
  rw [hfil, List.length_erase_of_mem (List.mem_range.mpr hlt), List.length_range]

theorem mem_moveCells (pieces : List Piece) (c : Piece) :
    c ∈ moveCells pieces ↔
      ∃ p ∈ pieces, p.x = c.x ∧ 0 ≤ c.y ∧ c.y < (pieces.length : Int) ∧ c.y ≠ p.y := by
  unfold moveCells
  rw [List.mem_flatMap]
  constructor
  · rintro ⟨p, hp, hc⟩
    rw [mem_rowMoves] at hc
    exact ⟨p, hp, hc.1.symm, hc.2⟩
  · rintro ⟨p, hp, hx, hc⟩
    exact ⟨p, hp, (mem_rowMoves _ p c).mpr ⟨hx.symm, hc⟩⟩

theorem length_moveCells (pieces : List Piece) (hv : ValidPlacement pieces) :
    (moveCells pieces).length = pieces.length * (pieces.length - 1) := by
  unfold moveCells
  rw [List.length_flatMap]
  have hconst : List.map (List.length ∘ rowMoves pieces.length) pieces =
      List.replicate pieces.length (pieces.length - 1) := by
    apply List.eq_replicate_iff.mpr
    refine ⟨by simp, ?_⟩
    intro b hb
    rw [List.mem_map] at hb
    obtain ⟨p, hp, rfl⟩ := hb
    exact length_rowMoves _ p (hv.range p hp).2
  rw [hconst, List.sum_const_nat]

theorem nodup_moveCells (pieces : List Piece) (hv : ValidPlacement pieces) :
    (moveCells pieces).Nodup := by
  unfold moveCells
  rw [List.nodup_flatMap]
  refine ⟨fun p _ => nodup_rowMoves _ p, ?_⟩
  have hpw : List.Pairwise (fun a b : Piece => a.x ≠ b.x) pieces := by
    have := hv.1
    rw [List.Nodup, List.pairwise_map] at this
    exact this
  apply hpw.imp
  intro a b hab
  show List.Disjoint (rowMoves pieces.length a) (rowMoves pieces.length b)
  intro c hca hcb
  rw [mem_rowMoves] at hca hcb
  exact hab (hca.1.symm.trans hcb.1)

theorem moveRow_of_getElem? (pieces : List Piece) (i : Nat) (p : Piece) (r : Int)
    (hp : pieces[i]? = some p) : moveRow pieces i r = pieces.set i ⟨p.x, r⟩ := by
  unfold moveRow; rw [hp]

theorem moveRow_self (pieces : List Piece) (i : Nat) (p : Piece)
    (hp : pieces[i]? = some p) : moveRow pieces i p.y = pieces := by
  rw [moveRow_of_getElem? pieces i p p.y hp]
  apply List.ext_getElem?
  intro j
  by_cases hij : i = j
  · subst hij
    have hl : i < pieces.length := by
      by_contra hlt
      rw [List.getElem?_eq_none (Nat.le_of_not_lt hlt)] at hp
      cases hp
    rw [List.getElem?_set_self hl, hp]
  · rw [List.getElem?_set_ne hij]

/-- C5: on a placement of `n` pieces with pairwise distinct columns and
coordinates in `[0, n)`, the enumeration step runs to completion, hands to
`board.Set` exactly the `n * (n - 1)` cells `(c, r)` with `c` a piece's column
and `r` in `[0, n)` other than that piece's row, each once; the value stored at
such a cell is the aggregate heuristic of the placement with only that piece's
row replaced by `r`; no other cell changes; and the placement slice is the same
afterwards as before. -/
theorem enumerateMoves_records_every_move (pieces : List Piece) (board : Board)
    (hv : ValidPlacement pieces) (hb : SquareBoard pieces.length board) :
    ∃ (board' : Board) (cells : List Piece),
      enumerateMoves board pieces = some (board', pieces, cells) ∧
      cells.length = pieces.length * (pieces.length - 1) ∧ cells.Nodup ∧
      (∀ c r : Int, (⟨c, r⟩ : Piece) ∈ cells ↔
        ∃ p ∈ pieces, p.x = c ∧ 0 ≤ r ∧ r < (pieces.length : Int) ∧ r ≠ p.y) ∧
      (∀ (i : Nat) (hi : i < pieces.length) (r : Int),
        0 ≤ r → r < (pieces.length : Int) → r ≠ pieces[i].y →
          Board.Get board' pieces[i].x r = some (aggregateHeuristic (moveRow pieces i r))) ∧
      (∀ c r : Int, 0 ≤ c → c < (pieces.length : Int) → 0 ≤ r → r < (pieces.length : Int) →
        (⟨c, r⟩ : Piece) ∉ cells → Board.Get board' c r = Board.Get board c r) := by
  obtain ⟨b', hrun, -, ha, hfr⟩ := enumerateMoves_spec pieces.length pieces rfl hv.range
    hv.inj board hb
  refine ⟨b', moveCells pieces, hrun, length_moveCells pieces hv, nodup_moveCells pieces hv,
    fun c r => mem_moveCells pieces ⟨c, r⟩, ?_, ?_⟩
  · intro i hi r hr0 hr1 hne
    have hp : pieces[i]? = some pieces[i] := List.getElem?_eq_getElem hi
    rw [moveRow_of_getElem? pieces i _ r hp]
    exact ha i pieces[i] hp r ⟨hr0, hr1⟩ hne
  · intro c r hc0 hc1 hr0 hr1 hnot
    apply hfr c r ⟨hc0, hc1⟩ ⟨hr0, hr1⟩
    rintro i p hp ⟨hx, hy⟩
    exact hnot ((mem_moveCells pieces ⟨c, r⟩).mpr
      ⟨p, List.getElem?_mem hp, hx.symm, hr0, hr1, hy⟩)

/-- C5 on the two-piece placement `[(0,0), (1,0)]` and a fresh board. -/
theorem enumerateMoves_records_every_move_witness :
    ValidPlacement [⟨0, 0⟩, ⟨1, 0⟩] ∧
    SquareBoard ([⟨0, 0⟩, ⟨1, 0⟩] : List Piece).length (NewBoard 2) ∧
    ∃ (board' : Board) (cells : List Piece),
      enumerateMoves (NewBoard 2) [⟨0, 0⟩, ⟨1, 0⟩] = some (board', [⟨0, 0⟩, ⟨1, 0⟩], cells) ∧
      cells.length =
        ([⟨0, 0⟩, ⟨1, 0⟩] : List Piece).length * (([⟨0, 0⟩, ⟨1, 0⟩] : List Piece).length - 1) ∧
      cells.Nodup ∧
      (∀ c r : Int, (⟨c, r⟩ : Piece) ∈ cells ↔
        ∃ p ∈ ([⟨0, 0⟩, ⟨1, 0⟩] : List Piece), p.x = c ∧ 0 ≤ r ∧
          r < (([⟨0, 0⟩, ⟨1, 0⟩] : List Piece).length : Int) ∧ r ≠ p.y) ∧
      (∀ (i : Nat) (hi : i < ([⟨0, 0⟩, ⟨1, 0⟩] : List Piece).length) (r : Int),
        0 ≤ r → r < (([⟨0, 0⟩, ⟨1, 0⟩] : List Piece).length : Int) →
        r ≠ (([⟨0, 0⟩, ⟨1, 0⟩] : List Piece)[i]).y →
          Board.Get board' (([⟨0, 0⟩, ⟨1, 0⟩] : List Piece)[i]).x r =
            some (aggregateHeuristic (moveRow [⟨0, 0⟩, ⟨1, 0⟩] i r))) ∧
      (∀ c r : Int, 0 ≤ c → c < (([⟨0, 0⟩, ⟨1, 0⟩] : List Piece).length : Int) →
        0 ≤ r → r < (([⟨0, 0⟩, ⟨1, 0⟩] : List Piece).length : Int) →
        (⟨c, r⟩ : Piece) ∉ cells → Board.Get board' c r = Board.Get (NewBoard 2) c r) :=
  ⟨by decide, by decide,
    enumerateMoves_records_every_move [⟨0, 0⟩, ⟨1, 0⟩] (NewBoard 2) (by decide) (by decide)⟩

/-! ## Selecting the minimum -/

theorem forEach_map {ι κ σ : Type} (body : κ → σ → Option σ) (f : ι → κ) (l : List ι) (s : σ) :
    forEach body (l.map f) s = forEach (fun i => body (f i)) l s := by
  induction l generalizing s with
  | nil => rfl
  | cons i l ih =>
    simp only [List.map_cons, forEach]
    cases body (f i) s with
    | none => rfl
    | some s1 => exact ih s1

/-- The nested loops of `FindMinMoves` visit the cells column by column. -/
theorem forEach_nested {ι κ σ : Type} (body : ι → κ → σ → Option σ) (xs : List ι)
    (ys : List κ) (s : σ) :
    forEach (fun x s => forEach (body x) ys s) xs s =
      forEach (fun (c : ι × κ) => body c.1 c.2) (xs ×ˢ ys) s := by
  induction xs generalizing s with
  | nil => rfl
  | cons x xs ih =>
    rw [List.product_cons, forEach_append, forEach_map]
    simp only [forEach]
    cases forEach (body x) ys s with
    | none => rfl
    | some s1 => exact ih s1

theorem FindMinMoves_spec (n : Nat) (board : Board) (hb : SquareBoard n board) (h : Int) :
    ∃ (ties : List Piece) (minVal : Int),
      FindMinMoves board h = some (ties, minVal) ∧
      minVal ≤ h ∧
      (∀ x y : Nat, x < n → y < n → ∀ v, Board.Get board x y = some v → minVal ≤ v) ∧
      (minVal = h ∨ ∃ x y : Nat, x < n ∧ y < n ∧ Board.Get board x y = some minVal) ∧
      ties = ((List.range n ×ˢ List.range n).filter
          (fun c => decide (Board.Get board c.1 c.2 = some minVal))).map
        (fun c => (⟨(c.1 : Int), (c.2 : Int)⟩ : Piece)) := by
  obtain ⟨s', hrun, hle, hlow, hatt, hties⟩ := forEach_invariant
    (fun (c : Nat × Nat) => minBody board c.1 c.2)
    (fun done s => s.2 ≤ h ∧
      (∀ c ∈ done, ∀ v, Board.Get board c.1 c.2 = some v → s.2 ≤ v) ∧
      (s.2 = h ∨ ∃ c ∈ done, Board.Get board c.1 c.2 = some s.2) ∧
      s.1 = (done.filter (fun c => decide (Board.Get board c.1 c.2 = some s.2))).map
        (fun c => (⟨(c.1 : Int), (c.2 : Int)⟩ : Piece)))
    (List.range n ×ˢ List.range n) ([], h)
    ⟨le_refl _, by simp, Or.inl rfl, by simp⟩
    (by
      rintro done ⟨x, y⟩ ⟨ms, mv⟩ hc ⟨hle, hlow, hatt, hms⟩
      simp only at hle hlow hatt hms
      rw [List.mem_product, List.mem_range, List.mem_range] at hc
      obtain ⟨v, hv⟩ := Board.Get_some_int n board hb x y
        ⟨Int.natCast_nonneg _, by exact_mod_cast hc.1⟩
        ⟨Int.natCast_nonneg _, by exact_mod_cast hc.2⟩
      unfold minBody
      simp only [hv]
      by_cases h1 : v = mv
      · subst h1
        rw [if_pos rfl]
        refine ⟨_, rfl, hle, ?_, ?_, ?_⟩
        · intro c hcm w hw
          rcases List.mem_append.mp hcm with hcm | hcm
          · exact hlow c hcm w hw
          · rw [List.mem_singleton] at hcm
            subst hcm
            rw [hv] at hw
            exact le_of_eq (Option.some.inj hw)
        · exact Or.inr ⟨(x, y), by simp, hv⟩
        · simp [hms, List.filter_append, hv]
      · rw [if_neg h1]
        by_cases h2 : v < mv
        · rw [if_pos h2]
          refine ⟨_, rfl, le_trans (le_of_lt h2) hle, ?_, ?_, ?_⟩
          · intro c hcm w hw
            rcases List.mem_append.mp hcm with hcm | hcm
            · exact le_trans (le_of_lt h2) (hlow c hcm w hw)
            · rw [List.mem_singleton] at hcm
              subst hcm
              rw [hv] at hw
              exact le_of_eq (Option.some.inj hw)
          · exact Or.inr ⟨(x, y), by simp, hv⟩
          · have hnone : done.filter
                (fun c => decide (Board.Get board c.1 c.2 = some v)) = [] := by
              rw [List.filter_eq_nil_iff]
              intro c hcm hcv
              have := hlow c hcm v (by simpa using hcv)
              omega
            simp [List.filter_append, hnone, hv]
        · rw [if_neg h2]
          refine ⟨_, rfl, hle, ?_, ?_, ?_⟩
          · intro c hcm w hw
            rcases List.mem_append.mp hcm with hcm | hcm
            · exact hlow c hcm w hw
            · rw [List.mem_singleton] at hcm
              subst hcm
              rw [hv] at hw
              have := Option.some.inj hw
              omega
          · rcases hatt with hatt | ⟨c, hcm, hcv⟩
            · exact Or.inl hatt
            · exact Or.inr ⟨c, by simp [hcm], hcv⟩
          · have hne : ¬ (v = mv) := h1
            simp [hms, List.filter_append, hv, hne])
  obtain ⟨ties, minVal⟩ := s'
  simp only at hle hlow hatt hties
  refine ⟨ties, minVal, ?_, hle, ?_, ?_, hties⟩
  · unfold FindMinMoves
    rw [hb.1, forEach_nested]
    exact hrun
  · intro x y hx hy v hv
    exact hlow (x, y) (by simp [List.mem_product, hx, hy]) v hv
  · rcases hatt with hatt | ⟨⟨x, y⟩, hcm, hcv⟩
    · exact Or.inl hatt
    · rw [List.mem_product, List.mem_range, List.mem_range] at hcm
      exact Or.inr ⟨x, y, hcm.1, hcm.2, hcv⟩

theorem FindMinMoves_ties (n : Nat) (board : Board) (hb : SquareBoard n board) (h : Int) :
    ∃ (ties : List Piece) (minVal : Int),
      FindMinMoves board h = some (ties, minVal) ∧
      minVal ≤ h ∧
      (∀ x y : Nat, x < n → y < n → ∀ v, Board.Get board x y = some v → minVal ≤ v) ∧
      (minVal = h ∨ ∃ x y : Nat, x < n ∧ y < n ∧ Board.Get board x y = some minVal) ∧
      ties.Nodup ∧
      (∀ c : Piece, c ∈ ties ↔
        ∃ x y : Nat, x < n ∧ y < n ∧ c = ⟨(x : Int), (y : Int)⟩ ∧
          Board.Get board x y = some minVal) := by
  obtain ⟨ties, minVal, hrun, hle, hlow, hatt, hties⟩ := FindMinMoves_spec n board hb h
  refine ⟨ties, minVal, hrun, hle, hlow, hatt, ?_, ?_⟩
  · rw [hties]
    apply List.Nodup.map
    · rintro ⟨a, b⟩ ⟨c, d⟩ hab
      simp only [Piece.mk.injEq, Nat.cast_inj] at hab
      rw [hab.1, hab.2]
    · exact List.Nodup.filter _ (List.Nodup.product (List.nodup_range n) (List.nodup_range n))
  · intro c
    rw [hties]
    simp only [List.mem_map, List.mem_filter, decide_eq_true_eq]
    constructor
    · rintro ⟨⟨x, y⟩, ⟨hmem, hget⟩, rfl⟩
      rw [List.mem_product, List.mem_range, List.mem_range] at hmem
      exact ⟨x, y, hmem.1, hmem.2, rfl, hget⟩
    · rintro ⟨x, y, hx, hy, rfl, hget⟩
      exact ⟨(x, y), ⟨by simp [List.mem_product, hx, hy], hget⟩, rfl⟩

/-- C6: on a square board `FindMinMoves(board, h)` returns `(ties, minVal)` with
`minVal <= h`, and every cell `(x, y)` of `ties` has `board.Get(x, y) == minVal`. -/
theorem FindMinMoves_minVal_le_and_ties_attain (n : Nat) (board : Board) (h : Int)
    (hb : SquareBoard n board) :
    ∃ (ties : List Piece) (minVal : Int),
      FindMinMoves board h = some (ties, minVal) ∧
      minVal ≤ h ∧
      ∀ c ∈ ties, Board.Get board c.x c.y = some minVal := by
  obtain ⟨ties, minVal, hrun, hle, -, -, -, hmem⟩ := FindMinMoves_ties n board hb h
  refine ⟨ties, minVal, hrun, hle, ?_⟩
  intro c hc
  obtain ⟨x, y, -, -, rfl, hget⟩ := (hmem c).mp hc
  exact hget

/-- C6 on a 2 by 2 board with bound 2. -/
theorem FindMinMoves_minVal_le_and_ties_attain_witness :
    SquareBoard 2 [[2, 1], [3, 1]] ∧
    ∃ (ties : List Piece) (minVal : Int),
      FindMinMoves [[2, 1], [3, 1]] 2 = some (ties, minVal) ∧
      minVal ≤ 2 ∧
      ∀ c ∈ ties, Board.Get [[2, 1], [3, 1]] c.x c.y = some minVal :=
  ⟨by decide, FindMinMoves_minVal_le_and_ties_attain 2 [[2, 1], [3, 1]] 2 (by decide)⟩

/-- C7: on a square board `FindMinMoves(board, h)` returns as `minVal` the
minimum of `h` and all cell values (a lower bound of all of them that is `h` or
the value of some cell), and the returned tie set holds every cell whose value
is `minVal` exactly once; it is non-empty when some cell has a value `<= h`. -/
theorem FindMinMoves_minimum_and_all_ties (n : Nat) (board : Board) (h : Int)
    (hb : SquareBoard n board) :
    ∃ (ties : List Piece) (minVal : Int),
      FindMinMoves board h = some (ties, minVal) ∧
      (minVal ≤ h ∧
        (∀ x y : Nat, x < n → y < n → ∀ v, Board.Get board x y = some v → minVal ≤ v) ∧
        (minVal = h ∨ ∃ x y : Nat, x < n ∧ y < n ∧ Board.Get board x y = some minVal)) ∧
      (∀ x y : Nat, x < n → y < n → Board.Get board x y = some minVal →
        ties.count ⟨(x : Int), (y : Int)⟩ = 1) ∧
      ((∃ x y : Nat, x < n ∧ y < n ∧ ∃ v, Board.Get board x y = some v ∧ v ≤ h) →
        ties ≠ []) := by
  obtain ⟨ties, minVal, hrun, hle, hlow, hatt, hnd, hmem⟩ := FindMinMoves_ties n board hb h
  refine ⟨ties, minVal, hrun, ⟨hle, hlow, hatt⟩, ?_, ?_⟩
  · intro x y hx hy hget
    exact List.count_eq_one_of_mem hnd ((hmem _).mpr ⟨x, y, hx, hy, rfl, hget⟩)
  · rintro ⟨x, y, hx, hy, v, hget, hv⟩
    have hmv := hlow x y hx hy v hget
    rcases hatt with hatt | ⟨x', y', hx', hy', hget'⟩
    · have hveq : v = minVal := by omega
      rw [hveq] at hget
      exact List.ne_nil_of_mem ((hmem _).mpr ⟨x, y, hx, hy, rfl, hget⟩)
    · exact List.ne_nil_of_mem ((hmem _).mpr ⟨x', y', hx', hy', rfl, hget'⟩)

/-- C7 on a 2 by 2 board with bound 2. -/
theorem FindMinMoves_minimum_and_all_ties_witness :
    SquareBoard 2 [[2, 1], [3, 1]] ∧
    ∃ (ties : List Piece) (minVal : Int),
      FindMinMoves [[2, 1], [3, 1]] 2 = some (ties, minVal) ∧
      (minVal ≤ 2 ∧
        (∀ x y : Nat, x < 2 → y < 2 → ∀ v,
          Board.Get [[2, 1], [3, 1]] x y = some v → minVal ≤ v) ∧
        (minVal = 2 ∨ ∃ x y : Nat, x < 2 ∧ y < 2 ∧
          Board.Get [[2, 1], [3, 1]] x y = some minVal)) ∧
      (∀ x y : Nat, x < 2 → y < 2 → Board.Get [[2, 1], [3, 1]] x y = some minVal →
        ties.count ⟨(x : Int), (y : Int)⟩ = 1) ∧
      ((∃ x y : Nat, x < 2 ∧ y < 2 ∧ ∃ v, Board.Get [[2, 1], [3, 1]] x y = some v ∧ v ≤ 2) →
        ties ≠ []) :=
  ⟨by decide, FindMinMoves_minimum_and_all_ties 2 [[2, 1], [3, 1]] 2 (by decide)⟩

/-! ## One iteration of the engine -/

theorem getElem?_lt_length {α : Type} {l : List α} {i : Nat} {a : α} (h : l[i]? = some a) :
    i < l.length := by
  by_contra hlt
  rw [List.getElem?_eq_none (Nat.le_of_not_lt hlt)] at h
  cases h

/-- After the current heuristic is stored and the moves are enumerated, every
cell `(c, r)` of the board holds the heuristic of the placement with the piece
of column `c` at row `r`, and `FindMinMoves` returns the cells of least value. -/
theorem scanMoves_spec (pieces : List Piece) (board : Board)
    (hv : ValidPlacement pieces) (hb : SquareBoard pieces.length board) :
    ∃ sc : Scan, scanMoves board pieces = some sc ∧
      SquareBoard pieces.length sc.board ∧ sc.pieces = pieces ∧
      sc.hToBeat = aggregateHeuristic pieces ∧
      (∀ (i : Nat) (p : Piece), pieces[i]? = some p →
        ∀ r : Int, 0 ≤ r ∧ r < (pieces.length : Int) →
          Board.Get sc.board p.x r = some (aggregateHeuristic (moveRow pieces i r))) ∧
      FindMinMoves sc.board sc.hToBeat = some (sc.minMoves, sc.newH) := by
  obtain ⟨b1, hset, hsq1, hget1⟩ :=
    setCurrent_spec pieces.length (aggregateHeuristic pieces) pieces hv.range board hb
  obtain ⟨b2, henum, hsq2, ha, hfr⟩ :=
    enumerateMoves_spec pieces.length pieces rfl hv.range hv.inj b1 hsq1
  obtain ⟨ties, minVal, hmin, -⟩ :=
    FindMinMoves_spec pieces.length b2 hsq2 (aggregateHeuristic pieces)
  refine ⟨⟨b2, pieces, aggregateHeuristic pieces, ties, minVal⟩, ?_, hsq2, rfl, rfl, ?_, hmin⟩
  · unfold scanMoves
    simp only [hset, henum, hmin]
  · intro i p hp r hr
    by_cases hne : r = p.y
    · subst hne
      rw [moveRow_self pieces i p hp]
      have hpr := hv.range p (List.getElem?_mem hp)
      rw [hfr p.x p.y hpr.1 hr, hget1 p.x p.y hpr.1 hr,
        if_pos ⟨p, List.getElem?_mem hp, rfl, rfl⟩]
      rintro j q hq ⟨hx, hy⟩
      have hij := hv.inj i j p q hp hq hx
      subst hij
      rw [hp] at hq
      exact hy (congrArg Piece.y (Option.some.inj hq))
    · rw [moveRow_of_getElem? pieces i p r hp]
      exact ha i p hp r hr hne

theorem findPieceLoop_spec (x : Int) (l : List Piece) (k : Nat) :
    (∀ idx, findPieceLoop x l k = some idx →
      ∃ j p, idx = k + j ∧ l[j]? = some p ∧ p.x = x) ∧
    (findPieceLoop x l k = none → ∀ p ∈ l, p.x ≠ x) := by
  induction l generalizing k with
  | nil =>
    refine ⟨?_, ?_⟩
    · intro idx h; simp [findPieceLoop] at h
    · intro _ p hp; cases hp
  | cons q l ih =>
    unfold findPieceLoop
    by_cases hq : q.x = x
    · rw [if_pos hq]
      refine ⟨?_, ?_⟩
      · intro idx h
        exact ⟨0, q, by simpa using (Option.some.inj h).symm, List.getElem?_cons_zero, hq⟩
      · intro h; cases h
    · rw [if_neg hq]
      refine ⟨?_, ?_⟩
      · intro idx h
        obtain ⟨j, p, hj, hp, hpx⟩ := (ih (k + 1)).1 idx h
        exact ⟨j + 1, p, by omega, by simpa using hp, hpx⟩
      · intro h p hp
        rcases List.mem_cons.mp hp with hp | hp
        · rw [hp]; exact hq
        · exact (ih (k + 1)).2 h p hp

theorem findPiece_spec (pieces : List Piece) (hv : ValidPlacement pieces)
    (i : Nat) (p : Piece) (hp : pieces[i]? = some p) :
    findPiece pieces p.x = (i, none) := by
  unfold findPiece
  cases hf : findPieceLoop p.x pieces 0 with
  | none =>
    exact absurd rfl ((findPieceLoop_spec p.x pieces 0).2 hf p (List.getElem?_mem hp))
  | some idx =>
    obtain ⟨j, q, hj, hq, hqx⟩ := (findPieceLoop_spec p.x pieces 0).1 idx hf
    have hji := hv.inj j i q p hq hp hqx
    have : idx = i := by omega
    rw [this]

theorem ValidPlacement.moveRow {pieces : List Piece} (hv : ValidPlacement pieces)
    (i : Nat) (r : Int) (hr : 0 ≤ r ∧ r < (pieces.length : Int)) :
    ValidPlacement (moveRow pieces i r) ∧ (moveRow pieces i r).length = pieces.length := by
  unfold NQueens.moveRow
  cases hp : pieces[i]? with
  | none => exact ⟨hv, rfl⟩
  | some p =>
    simp only
    have hi := getElem?_lt_length hp
    have hmap : (pieces.set i ⟨p.x, r⟩).map (fun q => q.x) = pieces.map (fun q => q.x) := by
      apply List.ext_getElem?
      intro j
      rw [List.getElem?_map, List.getElem?_map]
      by_cases hij : i = j
      · subst hij
        rw [List.getElem?_set_self hi, hp]
        rfl
      · rw [List.getElem?_set_ne hij]
    refine ⟨⟨by rw [hmap]; exact hv.1, ?_⟩, by simp⟩
    intro q hq
    rw [List.length_set]
    rcases List.mem_or_eq_of_mem_set hq with hq | hq
    · exact hv.2 q hq
    · rw [hq]
      have := hv.2 p (List.getElem?_mem hp)
      exact ⟨this.1, this.2.1, hr.1, hr.2⟩

/-- What one iteration does to a valid, non-empty placement, whatever the
random draw `r`: nothing panics, the chosen move puts one piece on a row of its
own column, and the heuristic of the new placement is `newH`, the least
heuristic over all such moves. -/
theorem iteration_spec (pieces : List Piece) (board : Board) (r : Nat)
    (hv : ValidPlacement pieces) (hne : pieces ≠ [])
    (hb : SquareBoard pieces.length board) :
    ∃ (sc : Scan) (pieces' : List Piece),
      scanMoves board pieces = some sc ∧ applyMove r sc = some pieces' ∧
      SquareBoard pieces.length sc.board ∧
      sc.hToBeat = aggregateHeuristic pieces ∧
      sc.newH = aggregateHeuristic pieces' ∧
      sc.newH ≤ aggregateHeuristic pieces ∧
      ValidPlacement pieces' ∧ pieces'.length = pieces.length ∧
      (∃ (i : Nat) (y : Int), i < pieces.length ∧ (0 ≤ y ∧ y < (pieces.length : Int)) ∧
        pieces' = moveRow pieces i y) ∧
      (∀ (i : Nat) (y : Int), i < pieces.length → (0 ≤ y ∧ y < (pieces.length : Int)) →
        sc.newH ≤ aggregateHeuristic (moveRow pieces i y)) ∧
      sc.minMoves ≠ [] ∧
      ∃ (randIdx : Nat) (chosenPiece : Piece) (replaceIdx : Nat),
        Intn r sc.minMoves.length = some randIdx ∧
        sc.minMoves[randIdx]? = some chosenPiece ∧
        findPiece sc.pieces chosenPiece.x = (replaceIdx, none) ∧
        replaceIdx < sc.pieces.length := by
  obtain ⟨sc, hscan, hsq, hps, hh, hG, hmin⟩ := scanMoves_spec pieces board hv hb
  obtain ⟨ties, minVal, hmin2, hle, hlow, hatt, -, hmem⟩ :=
    FindMinMoves_ties pieces.length sc.board hsq sc.hToBeat
  rw [hmin] at hmin2
  have ht : sc.minMoves = ties := congrArg Prod.fst (Option.some.inj hmin2)
  have hm : sc.newH = minVal := congrArg Prod.snd (Option.some.inj hmin2)
  subst ht hm
  -- the cell of the first piece holds the current heuristic
  have hne2 : sc.minMoves ≠ [] := by
    obtain ⟨p0, rest, hp0⟩ := List.exists_cons_of_ne_nil hne
    have hp : pieces[0]? = some p0 := by rw [hp0]; exact List.getElem?_cons_zero
    have hr0 := hv.range p0 (List.getElem?_mem hp)
    have hg := hG 0 p0 hp p0.y hr0.2
    rw [moveRow_self pieces 0 p0 hp, ← hh] at hg
    obtain ⟨⟨hx0, hx1⟩, ⟨hy0, hy1⟩⟩ := hr0
    obtain ⟨x, hx⟩ := Int.eq_ofNat_of_zero_le hx0
    obtain ⟨y, hy⟩ := Int.eq_ofNat_of_zero_le hy0
    rw [hx, hy] at hg
    rw [hx] at hx1
    rw [hy] at hy1
    rcases hatt with hatt | ⟨x', y', hx', hy', hget'⟩
    · rw [← hatt] at hg
      exact List.ne_nil_of_mem ((hmem _).mpr
        ⟨x, y, by exact_mod_cast hx1, by exact_mod_cast hy1, rfl, hg⟩)
    · exact List.ne_nil_of_mem ((hmem _).mpr ⟨x', y', hx', hy', rfl, hget'⟩)
  have hlen : 0 < sc.minMoves.length := List.length_pos.mpr hne2
  have hidx : r % sc.minMoves.length < sc.minMoves.length := Nat.mod_lt _ hlen
  have hintn : Intn r sc.minMoves.length = some (r % sc.minMoves.length) := by
    unfold Intn
    rw [if_neg (Nat.pos_iff_ne_zero.mp hlen)]
  have hchosen : sc.minMoves[r % sc.minMoves.length]? =
      some sc.minMoves[r % sc.minMoves.length] := List.getElem?_eq_getElem hidx
  obtain ⟨x, y, hx, hy, hc, hget⟩ := (hmem _).mp (List.getElem_mem hidx)
  obtain ⟨i, p, hp, hpx⟩ := hv.column (x : Int) ⟨Int.natCast_nonneg _, by exact_mod_cast hx⟩
  have hyr : 0 ≤ (y : Int) ∧ (y : Int) < (pieces.length : Int) :=
    ⟨Int.natCast_nonneg _, by exact_mod_cast hy⟩
  have hi : i < pieces.length := getElem?_lt_length hp
  have hval := hG i p hp (y : Int) hyr
  rw [hpx, hget] at hval
  have hnew : sc.newH = aggregateHeuristic (moveRow pieces i (y : Int)) := Option.some.inj hval
  have hfind : findPiece pieces sc.minMoves[r % sc.minMoves.length].x = (i, none) := by
    rw [hc]
    show findPiece pieces (x : Int) = (i, none)
    rw [← hpx]
    exact findPiece_spec pieces hv i p hp
  have hmove : moveRow pieces i (y : Int) = pieces.set i sc.minMoves[r % sc.minMoves.length] := by
    rw [moveRow_of_getElem? pieces i p _ hp, hc, hpx]
  refine ⟨sc, moveRow pieces i (y : Int), hscan, ?_, hsq, hh, hnew, ?_, (hv.moveRow i _ hyr).1,
    (hv.moveRow i _ hyr).2, ⟨i, (y : Int), hi, hyr, rfl⟩, ?_, hne2,
    ⟨r % sc.minMoves.length, sc.minMoves[r % sc.minMoves.length], i, hintn, hchosen,
      by rw [hps]; exact hfind, by rw [hps]; exact hi⟩⟩
  · unfold applyMove
    simp only [hintn, hchosen, hps, hfind, hmove]
    unfold sliceSet
    rw [if_pos hi]
  · rw [hh] at hle; exact hle
  · intro j z hj hz
    have hq : pieces[j]? = some pieces[j] := List.getElem?_eq_getElem hj
    have hg := hG j pieces[j] hq z hz
    obtain ⟨⟨hx0, hx1⟩, -⟩ := hv.range pieces[j] (List.getElem_mem hj)
    obtain ⟨hz0, hz1⟩ := hz
    obtain ⟨a, ha⟩ := Int.eq_ofNat_of_zero_le hx0
    obtain ⟨b, hb'⟩ := Int.eq_ofNat_of_zero_le hz0
    rw [ha] at hx1 hg
    subst hb'
    exact hlow a b (by exact_mod_cast hx1) (by exact_mod_cast hz1) _ hg

/-! ## The loop of `HillClimb` -/

/-- The states the loop of `HillClimb` passes through: a valid, non-empty
placement and a square board of its size. -/
theorem HillClimbIter_spec (decision : Decision) (stepLimit : Int) (rand : Nat → Nat)
    (s : State) (hv : ValidPlacement s.pieces) (hne : s.pieces ≠ [])
    (hb : SquareBoard s.pieces.length s.board) :
    ∃ (sc : Scan) (pieces' : List Piece),
      scanMoves s.board s.pieces = some sc ∧ applyMove (rand s.draws) sc = some pieces' ∧
      SquareBoard s.pieces.length sc.board ∧
      sc.hToBeat = aggregateHeuristic s.pieces ∧
      sc.newH = aggregateHeuristic pieces' ∧
      ValidPlacement pieces' ∧ pieces'.length = s.pieces.length ∧
      HillClimbIter decision stepLimit rand s =
        match decision [sc.hToBeat, sc.newH, s.count + 1, stepLimit] with
        | none => Step.panic
        | some true => Step.next ⟨sc.board, pieces', s.count + 1, s.draws + 1⟩
        | some false =>
          if sc.newH = 0 then Step.ret ⟨sc.board, pieces', s.count + 1, none⟩
          else Step.ret ⟨sc.board, pieces', s.count + 1, some ⟨"No Solution Found"⟩⟩ := by
  obtain ⟨sc, pieces', hscan, happly, hsq, hh, hnew, -, hv', hlen, -⟩ :=
    iteration_spec s.pieces s.board (rand s.draws) hv hne hb
  refine ⟨sc, pieces', hscan, happly, hsq, hh, hnew, hv', hlen, ?_⟩
  unfold HillClimbIter
  simp only [hscan, happly]

theorem HillClimbIter_next (decision : Decision) (stepLimit : Int) (rand : Nat → Nat)
    (s s' : State) (hv : ValidPlacement s.pieces) (hne : s.pieces ≠ [])
    (hb : SquareBoard s.pieces.length s.board)
    (hstep : HillClimbIter decision stepLimit rand s = Step.next s') :
    ValidPlacement s'.pieces ∧ s'.pieces.length = s.pieces.length ∧
      SquareBoard s.pieces.length s'.board ∧
      decision [aggregateHeuristic s.pieces, aggregateHeuristic s'.pieces, s.count + 1,
        stepLimit] = some true := by
  obtain ⟨sc, pieces', -, -, hsq, hh, hnew, hv', hlen, hiter⟩ :=
    HillClimbIter_spec decision stepLimit rand s hv hne hb
  rw [hiter] at hstep
  cases hd : decision [sc.hToBeat, sc.newH, s.count + 1, stepLimit] with
  | none => rw [hd] at hstep; cases hstep
  | some b =>
    rw [hd] at hstep
    cases b with
    | false =>
      simp only at hstep
      split at hstep <;> cases hstep
    | true =>
      simp only [Step.next.injEq] at hstep
      subst hstep
      refine ⟨hv', hlen, hsq, ?_⟩
      simp only
      rw [← hh, ← hnew]
      exact hd

theorem HillClimbIter_ret (decision : Decision) (stepLimit : Int) (rand : Nat → Nat)
    (s : State) (res : Result) (hv : ValidPlacement s.pieces) (hne : s.pieces ≠ [])
    (hb : SquareBoard s.pieces.length s.board)
    (hstep : HillClimbIter decision stepLimit rand s = Step.ret res) :
    (res.err = none ↔ aggregateHeuristic res.pieces = 0) ∧
      (res.err ≠ none → res.err = some ⟨"No Solution Found"⟩) ∧
      res.count = s.count + 1 := by
  obtain ⟨sc, pieces', -, -, -, -, hnew, -, -, hiter⟩ :=
    HillClimbIter_spec decision stepLimit rand s hv hne hb
  rw [hiter] at hstep
  cases hd : decision [sc.hToBeat, sc.newH, s.count + 1, stepLimit] with
  | none => rw [hd] at hstep; cases hstep
  | some b =>
    rw [hd] at hstep
    cases b with
    | true => cases hstep
    | false =>
      simp only at hstep
      by_cases h0 : sc.newH = 0
      · rw [if_pos h0, Step.ret.injEq] at hstep
        subst hstep
        rw [hnew] at h0
        exact ⟨⟨fun _ => h0, fun _ => rfl⟩, fun h => absurd rfl h, rfl⟩
      · rw [if_neg h0, Step.ret.injEq] at hstep
        subst hstep
        rw [hnew] at h0
        exact ⟨⟨fun h => Option.noConfusion h, fun h => absurd h h0⟩, fun _ => rfl, rfl⟩

theorem HillClimbIter_nil (decision : Decision) (stepLimit : Int) (rand : Nat → Nat)
    (s : State) (hs : s.pieces = []) (hb : s.board = []) :
    HillClimbIter decision stepLimit rand s = Step.panic := by
  obtain ⟨board, pieces, count, draws⟩ := s
  simp only at hs hb
  subst hs hb
  rfl

theorem stateAt_invariant (decision : Decision) (stepLimit : Int) (rand : Nat → Nat)
    (pieces : List Piece) (hv : ValidPlacement pieces) (hne : pieces ≠ []) (i : Nat)
    (s : State) (hs : stateAt decision stepLimit rand pieces i = some s) :
    ValidPlacement s.pieces ∧ s.pieces.length = pieces.length ∧
      SquareBoard pieces.length s.board := by
  induction i generalizing s with
  | zero =>
    simp only [stateAt, Option.some.injEq] at hs
    subst hs
    exact ⟨hv, rfl, squareBoard_NewBoard _⟩
  | succ i ih =>
    simp only [stateAt] at hs
    cases hprev : stateAt decision stepLimit rand pieces i with
    | none => rw [hprev] at hs; cases hs
    | some s0 =>
      rw [hprev] at hs
      simp only at hs
      obtain ⟨hv0, hlen0, hsq0⟩ := ih s0 hprev
      have hne0 : s0.pieces ≠ [] := by
        intro h
        rw [h] at hlen0
        exact hne (List.length_eq_zero.mp hlen0.symm)
      cases hstep : HillClimbIter decision stepLimit rand s0 with
      | panic => rw [hstep] at hs; cases hs
      | ret r => rw [hstep] at hs; cases hs
      | next s1 =>
        rw [hstep] at hs
        simp only [Option.some.injEq] at hs
        subst hs
        obtain ⟨hv1, hlen1, hsq1, -⟩ :=
          HillClimbIter_next decision stepLimit rand s0 s1 hv0 hne0 (hlen0 ▸ hsq0) hstep
        exact ⟨hv1, hlen1.trans hlen0, hlen0 ▸ hsq1⟩

/-- C8: at the start of every iteration of a run of `HillClimb` on a placement
of `n >= 1` pieces with pairwise distinct columns and coordinates in `[0, n)`,
the iteration reaches `FindMinMoves` without a panic, the tie set is non-empty,
`rand.Intn(len(minMoves))` and `minMoves[randIdx]` succeed whatever the draw,
`findPiece` returns a valid index with a `nil` error, and the move is applied. -/
theorem every_iteration_selects_a_move (pieces : List Piece) (decision : Decision)
    (stepLimit : Int) (rand : Nat → Nat) (i : Nat) (s : State)
    (hv : ValidPlacement pieces) (hn : 1 ≤ pieces.length)
    (hs : stateAt decision stepLimit rand pieces i = some s) :
    ∃ sc : Scan, scanMoves s.board s.pieces = some sc ∧
      sc.minMoves ≠ [] ∧
      ∃ (randIdx : Nat) (chosenPiece : Piece) (replaceIdx : Nat),
        Intn (rand s.draws) sc.minMoves.length = some randIdx ∧
        randIdx < sc.minMoves.length ∧
        sc.minMoves[randIdx]? = some chosenPiece ∧
        findPiece sc.pieces chosenPiece.x = (replaceIdx, none) ∧
        replaceIdx < sc.pieces.length ∧
        ∃ pieces', applyMove (rand s.draws) sc = some pieces' := by
  have hne : pieces ≠ [] := by
    intro h; rw [h] at hn; exact absurd hn (by decide)
  obtain ⟨hv', hlen, hsq⟩ := stateAt_invariant decision stepLimit rand pieces hv hne i s hs
  have hne' : s.pieces ≠ [] := by
    intro h
    rw [h] at hlen
    exact hne (List.length_eq_zero.mp hlen.symm)
  obtain ⟨sc, pieces', hscan, happly, -, -, -, -, -, -, -, -, hties, randIdx, chosen, idx,
    hintn, hget, hfind, hidx⟩ :=
    iteration_spec s.pieces s.board (rand s.draws) hv' hne' (hlen ▸ hsq)
  exact ⟨sc, hscan, hties, randIdx, chosen, idx, hintn, getElem?_lt_length hget, hget, hfind,
    hidx, pieces', happly⟩

/-- C8 at the second iteration of a strict-descent run on `[(0,0), (1,0), (2,0)]`. -/
theorem every_iteration_selects_a_move_witness :
    ValidPlacement [⟨0, 0⟩, ⟨1, 0⟩, ⟨2, 0⟩] ∧
    1 ≤ ([⟨0, 0⟩, ⟨1, 0⟩, ⟨2, 0⟩] : List Piece).length ∧
    ∃ s : State,
      stateAt NoSideWays 1000 (fun _ => 0) [⟨0, 0⟩, ⟨1, 0⟩, ⟨2, 0⟩] 1 = some s ∧
      ∃ sc : Scan, scanMoves s.board s.pieces = some sc ∧
        sc.minMoves ≠ [] ∧
        ∃ (randIdx : Nat) (chosenPiece : Piece) (replaceIdx : Nat),
          Intn ((fun _ => 0) s.draws) sc.minMoves.length = some randIdx ∧
          randIdx < sc.minMoves.length ∧
          sc.minMoves[randIdx]? = some chosenPiece ∧
          findPiece sc.pieces chosenPiece.x = (replaceIdx, none) ∧
          replaceIdx < sc.pieces.length ∧
          ∃ pieces', applyMove ((fun _ => 0) s.draws) sc = some pieces' :=
  ⟨by decide, by decide, _, rfl,
    every_iteration_selects_a_move [⟨0, 0⟩, ⟨1, 0⟩, ⟨2, 0⟩] NoSideWays 1000 (fun _ => 0) 1 _
      (by decide) (by decide) rfl⟩

theorem HillClimbLoop_returned (decision : Decision) (stepLimit : Int) (rand : Nat → Nat)
    (fuel : Nat) (s : State) (res : Result) (hv : ValidPlacement s.pieces)
    (hne : s.pieces ≠ []) (hb : SquareBoard s.pieces.length s.board)
    (hrun : HillClimbLoop decision stepLimit rand fuel s = Run.returned res) :
    (res.err = none ↔ aggregateHeuristic res.pieces = 0) ∧
      (res.err ≠ none → res.err = some ⟨"No Solution Found"⟩) := by
  induction fuel generalizing s with
  | zero => simp [HillClimbLoop] at hrun
  | succ fuel ih =>
    simp only [HillClimbLoop] at hrun
    cases hstep : HillClimbIter decision stepLimit rand s with
    | panic => rw [hstep] at hrun; cases hrun
    | ret r =>
      rw [hstep] at hrun
      simp only [Run.returned.injEq] at hrun
      subst hrun
      obtain ⟨h1, h2, -⟩ := HillClimbIter_ret decision stepLimit rand s r hv hne hb hstep
      exact ⟨h1, h2⟩
    | next s1 =>
      rw [hstep] at hrun
      obtain ⟨hv1, hlen1, hsq1, -⟩ :=
        HillClimbIter_next decision stepLimit rand s s1 hv hne hb hstep
      have hne1 : s1.pieces ≠ [] := by
        intro h
        rw [h] at hlen1
        exact hne (List.length_eq_zero.mp hlen1.symm)
      exact ih s1 hv1 hne1 (hlen1 ▸ hsq1) hrun

theorem HillClimbLoop_nil (decision : Decision) (stepLimit : Int) (rand : Nat → Nat)
    (fuel : Nat) (res : Result) :
    HillClimbLoop decision stepLimit rand fuel (initState []) ≠ Run.returned res := by
  cases fuel with
  | zero => simp [HillClimbLoop]
  | succ fuel =>
    simp only [HillClimbLoop]
    rw [HillClimbIter_nil decision stepLimit rand (initState []) rfl rfl]
    simp

/-- C9: when a run of `HillClimb` on a placement with pairwise distinct columns
and coordinates in `[0, n)` returns, under any decision policy and any
tie-break sequence, the returned error is `nil` exactly when the aggregate
heuristic of the returned pieces is 0; any other returned error is the
`NoSolution` error. -/
theorem HillClimb_success_iff_solved (pieces : List Piece) (decision : Decision)
    (stepLimit : Int) (rand : Nat → Nat) (fuel : Nat) (res : Result)
    (hv : ValidPlacement pieces)
    (hrun : HillClimb pieces decision stepLimit rand fuel = Run.returned res) :
    (res.err = none ↔ aggregateHeuristic res.pieces = 0) ∧
      (res.err ≠ none → res.err = some ⟨"No Solution Found"⟩) := by
  by_cases hne : pieces = []
  · subst hne
    exact absurd hrun (HillClimbLoop_nil decision stepLimit rand fuel res)
  · exact HillClimbLoop_returned decision stepLimit rand fuel (initState pieces) res hv hne
      (squareBoard_NewBoard _) hrun

/-- C9 on a strict-descent run from `[(0,0), (1,0), (2,0), (3,0)]`, which returns
within 10 iterations. -/
theorem HillClimb_success_iff_solved_witness :
    ValidPlacement [⟨0, 0⟩, ⟨1, 0⟩, ⟨2, 0⟩, ⟨3, 0⟩] ∧
    ∃ res : Result,
      HillClimb [⟨0, 0⟩, ⟨1, 0⟩, ⟨2, 0⟩, ⟨3, 0⟩] NoSideWays 1000 (fun _ => 0) 10 =
        Run.returned res ∧
      (res.err = none ↔ aggregateHeuristic res.pieces = 0) ∧
      (res.err ≠ none → res.err = some ⟨"No Solution Found"⟩) :=
  ⟨by decide, _, rfl,
    HillClimb_success_iff_solved [⟨0, 0⟩, ⟨1, 0⟩, ⟨2, 0⟩, ⟨3, 0⟩] NoSideWays 1000 (fun _ => 0)
      10 _ (by decide) rfl⟩

theorem stateAt_nil_succ (decision : Decision) (stepLimit : Int) (rand : Nat → Nat)
    (k : Nat) : stateAt decision stepLimit rand [] (k + 1) = none := by
  induction k with
  | zero =>
    simp only [stateAt, HillClimbIter_nil decision stepLimit rand (initState []) rfl rfl]
  | succ k ih =>
    rw [stateAt, ih]

theorem stateAt_succ_eq (decision : Decision) (stepLimit : Int) (rand : Nat → Nat)
    (pieces : List Piece) (i : Nat) (s s' : State)
    (hs : stateAt decision stepLimit rand pieces i = some s)
    (hs' : stateAt decision stepLimit rand pieces (i + 1) = some s') :
    HillClimbIter decision stepLimit rand s = Step.next s' := by
  rw [stateAt, hs] at hs'
  simp only at hs'
  cases hstep : HillClimbIter decision stepLimit rand s with
  | panic => rw [hstep] at hs'; cases hs'
  | ret r => rw [hstep] at hs'; cases hs'
  | next s1 =>
    rw [hstep] at hs'
    simp only [Option.some.injEq] at hs'
    rw [hs']

/-- C10: in a run of `HillClimb` with the `NoSideWays` policy on a placement
with pairwise distinct columns and coordinates in `[0, n)`, whenever the engine
goes on from iteration `i` to iteration `i + 1`, the aggregate heuristic of the
placement at the start of iteration `i + 1` is strictly smaller than at the
start of iteration `i`, whatever the tie-break sequence. -/
theorem NoSideWays_strictly_decreases (pieces : List Piece) (stepLimit : Int)
    (rand : Nat → Nat) (i : Nat) (s s' : State)
    (hv : ValidPlacement pieces)
    (hs : stateAt NoSideWays stepLimit rand pieces i = some s)
    (hs' : stateAt NoSideWays stepLimit rand pieces (i + 1) = some s') :
    aggregateHeuristic s'.pieces < aggregateHeuristic s.pieces := by
  have hne : pieces ≠ [] := by
    intro h
    subst h
    rw [stateAt_nil_succ] at hs'
    cases hs'
  obtain ⟨hv0, hlen0, hsq0⟩ := stateAt_invariant NoSideWays stepLimit rand pieces hv hne i s hs
  have hne0 : s.pieces ≠ [] := by
    intro h
    rw [h] at hlen0
    exact hne (List.length_eq_zero.mp hlen0.symm)
  have hstep := stateAt_succ_eq NoSideWays stepLimit rand pieces i s s' hs hs'
  obtain ⟨-, -, -, hdec⟩ :=
    HillClimbIter_next NoSideWays stepLimit rand s s' hv0 hne0 (hlen0 ▸ hsq0) hstep
  unfold NoSideWays at hdec
  simp only [List.getElem?_cons_succ, List.getElem?_cons_zero] at hdec
  by_contra hlt
  rw [if_neg hlt] at hdec
  cases hdec

/-- C10 on the first two iterations of a run from `[(0,0), (1,0), (2,0)]`. -/
theorem NoSideWays_strictly_decreases_witness :
    ValidPlacement [⟨0, 0⟩, ⟨1, 0⟩, ⟨2, 0⟩] ∧
    ∃ s s' : State,
      stateAt NoSideWays 1000 (fun _ => 0) [⟨0, 0⟩, ⟨1, 0⟩, ⟨2, 0⟩] 0 = some s ∧
      stateAt NoSideWays 1000 (fun _ => 0) [⟨0, 0⟩, ⟨1, 0⟩, ⟨2, 0⟩] (0 + 1) = some s' ∧
      aggregateHeuristic s'.pieces < aggregateHeuristic s.pieces :=
  ⟨by decide, _, _, rfl, rfl,
    NoSideWays_strictly_decreases [⟨0, 0⟩, ⟨1, 0⟩, ⟨2, 0⟩] 1000 (fun _ => 0) 0 _ _
      (by decide) rfl rfl⟩

/-! ## The decision policies -/

theorem SideWays_apply (currentH candidateH stepCount stepLimit : Int) :
    SideWays [currentH, candidateH, stepCount, stepLimit] =
      some (if currentH = 0 ∨ candidateH = 0 then false
        else if candidateH < currentH then true
        else if stepCount = stepLimit then false
        else true) := by
  unfold SideWays
  simp only [List.getElem?_cons_zero, List.getElem?_cons_succ]
  by_cases h0 : currentH = 0
  · simp [h0]
  · by_cases h1 : candidateH = 0
    · simp [h0, h1]
    · by_cases h2 : candidateH < currentH
      · simp [h0, h1, h2]
      · by_cases h3 : stepCount = stepLimit
        · simp [h0, h1, h2, h3]
        · simp [h0, h1, h2, h3]

/-- C14: for all integers, `SideWays(currentH, candidateH, stepCount, stepLimit)`
is false if `currentH == 0` or `candidateH == 0`; otherwise true if
`candidateH < currentH`; otherwise false if `stepCount == stepLimit` and true
if not. -/
theorem SideWays_four_args (currentH candidateH stepCount stepLimit : Int) :
    SideWays [currentH, candidateH, stepCount, stepLimit] =
      some (if currentH = 0 ∨ candidateH = 0 then false
        else if candidateH < currentH then true
        else if stepCount = stepLimit then false
        else true) :=
  SideWays_apply currentH candidateH stepCount stepLimit

/-- C15: on any argument list with at least two integers `NoSideWays` returns
true exactly when `candidateH < currentH`, whatever the further arguments. -/
theorem NoSideWays_iff_lt (currentH candidateH : Int) (more : List Int) :
    ∃ b : Bool, NoSideWays (currentH :: candidateH :: more) = some b ∧
      (b = true ↔ candidateH < currentH) := by
  unfold NoSideWays
  simp only [List.getElem?_cons_zero, List.getElem?_cons_succ]
  by_cases h : candidateH < currentH
  · exact ⟨true, by rw [if_pos h], by simp [h]⟩
  · exact ⟨false, by rw [if_neg h], by simp [h]⟩

/-! ## Placements in a single row -/

theorem QueenHeuristic_same_row (p : Piece) (l : List Piece) (h : ∀ q ∈ l, q.y = p.y) :
    p.QueenHeuristic l = (l.length : Int) := by
  induction l with
  | nil => rfl
  | cons q l ih =>
    have hq : threatens p q := Or.inr (Or.inl (h q (List.mem_cons_self _ _)).symm)
    rw [QueenHeuristic_cons, if_pos hq, ih (fun r hr => h r (List.mem_cons_of_mem _ hr))]
    simp only [List.length_cons]
    push_cast
    ring

theorem aggregateHeuristic_same_row (pieces : List Piece) (r : Int)
    (h : ∀ p ∈ pieces, p.y = r) :
    2 * aggregateHeuristic pieces = (pieces.length : Int) * ((pieces.length : Int) - 1) := by
  induction pieces with
  | nil => simp [aggregateHeuristic_nil]
  | cons p rest ih =>
    have hp : p.y = r := h p (List.mem_cons_self _ _)
    have hrest : ∀ q ∈ rest, q.y = r := fun q hq => h q (List.mem_cons_of_mem _ hq)
    rw [aggregateHeuristic_cons, QueenHeuristic_same_row p rest (fun q hq => by rw [hrest q hq, hp])]
    have := ih hrest
    simp only [List.length_cons]
    push_cast
    linarith

/-- C17: a placement of `n >= 1` pieces with pairwise distinct columns that all
share one row has aggregate heuristic `n * (n - 1) / 2`. -/
theorem aggregateHeuristic_single_row (pieces : List Piece) (r : Int)
    (_hn : 1 ≤ pieces.length) (_hcols : (pieces.map (fun p => p.x)).Nodup)
    (hrow : ∀ p ∈ pieces, p.y = r) :
    aggregateHeuristic pieces = (pieces.length : Int) * ((pieces.length : Int) - 1) / 2 := by
  have h2 := aggregateHeuristic_same_row pieces r hrow
  rw [← h2]
  simp

/-- C17 at the placement `[(0,0), (1,0), (2,0), (3,0)]` of the spec's scenario:
its heuristic is `4 * 3 / 2 = 6`. -/
theorem aggregateHeuristic_single_row_witness :
    1 ≤ ([⟨0, 0⟩, ⟨1, 0⟩, ⟨2, 0⟩, ⟨3, 0⟩] : List Piece).length ∧
    (([⟨0, 0⟩, ⟨1, 0⟩, ⟨2, 0⟩, ⟨3, 0⟩] : List Piece).map (fun p => p.x)).Nodup ∧
    (∀ p ∈ ([⟨0, 0⟩, ⟨1, 0⟩, ⟨2, 0⟩, ⟨3, 0⟩] : List Piece), p.y = 0) ∧
    aggregateHeuristic [⟨0, 0⟩, ⟨1, 0⟩, ⟨2, 0⟩, ⟨3, 0⟩] =
      ((([⟨0, 0⟩, ⟨1, 0⟩, ⟨2, 0⟩, ⟨3, 0⟩] : List Piece).length : Nat) : Int) *
        (((([⟨0, 0⟩, ⟨1, 0⟩, ⟨2, 0⟩, ⟨3, 0⟩] : List Piece).length : Nat) : Int) - 1) / 2 ∧
    aggregateHeuristic [⟨0, 0⟩, ⟨1, 0⟩, ⟨2, 0⟩, ⟨3, 0⟩] = 6 :=
  ⟨by decide, by decide, by decide,
    aggregateHeuristic_single_row [⟨0, 0⟩, ⟨1, 0⟩, ⟨2, 0⟩, ⟨3, 0⟩] 0 (by decide) (by decide)
      (by decide),
    by decide⟩

/-! ## Termination and step counts under strict descent -/

/-- The three ways an iteration on a valid, non-empty placement can end, by
the answer of the decision function; `pieces'` is the placement after the move. -/
theorem HillClimbIter_cases (decision : Decision) (stepLimit : Int) (rand : Nat → Nat)
    (s : State) (hv : ValidPlacement s.pieces) (hne : s.pieces ≠ [])
    (hb : SquareBoard s.pieces.length s.board) :
    ∃ (board' : Board) (pieces' : List Piece),
      SquareBoard s.pieces.length board' ∧
      ValidPlacement pieces' ∧ pieces'.length = s.pieces.length ∧
      aggregateHeuristic pieces' ≤ aggregateHeuristic s.pieces ∧
      (∃ (i : Nat) (y : Int), i < s.pieces.length ∧
        (0 ≤ y ∧ y < (s.pieces.length : Int)) ∧ pieces' = moveRow s.pieces i y) ∧
      (∀ (i : Nat) (y : Int), i < s.pieces.length → (0 ≤ y ∧ y < (s.pieces.length : Int)) →
        aggregateHeuristic pieces' ≤ aggregateHeuristic (moveRow s.pieces i y)) ∧
      ((decision [aggregateHeuristic s.pieces, aggregateHeuristic pieces', s.count + 1,
            stepLimit] = none ∧
          HillClimbIter decision stepLimit rand s = Step.panic) ∨
        (decision [aggregateHeuristic s.pieces, aggregateHeuristic pieces', s.count + 1,
            stepLimit] = some true ∧
          HillClimbIter decision stepLimit rand s =
            Step.next ⟨board', pieces', s.count + 1, s.draws + 1⟩) ∨
        (decision [aggregateHeuristic s.pieces, aggregateHeuristic pieces', s.count + 1,
            stepLimit] = some false ∧
          ∃ err : Option NoSolution,
            HillClimbIter decision stepLimit rand s =
              Step.ret ⟨board', pieces', s.count + 1, err⟩ ∧
            (err = none ↔ aggregateHeuristic pieces' = 0))) := by
  obtain ⟨sc, pieces', hscan, happly, hsq, hh, hnew, hle, hv', hlen, hmove, hmin, -⟩ :=
    iteration_spec s.pieces s.board (rand s.draws) hv hne hb
  refine ⟨sc.board, pieces', hsq, hv', hlen, hnew ▸ hle, hmove, ?_, ?_⟩
  · intro i y hi hy
    rw [← hnew]
    exact hmin i y hi hy
  · rw [← hh, ← hnew]
    unfold HillClimbIter
    simp only [hscan, happly]
    cases hd : decision [sc.hToBeat, sc.newH, s.count + 1, stepLimit] with
    | none => exact Or.inl ⟨rfl, rfl⟩
    | some b =>
      cases b with
      | true => exact Or.inr (Or.inl ⟨rfl, rfl⟩)
      | false =>
        refine Or.inr (Or.inr ⟨rfl, ?_⟩)
        by_cases h0 : sc.newH = 0
        · exact ⟨none, by simp only [if_pos h0], ⟨fun _ => h0, fun _ => rfl⟩⟩
        · exact ⟨some ⟨"No Solution Found"⟩, by simp only [if_neg h0],
            ⟨fun h => Option.noConfusion h, fun h => absurd h h0⟩⟩

theorem NoSideWays_apply (currentH candidateH : Int) (more : List Int) :
    NoSideWays (currentH :: candidateH :: more) =
      some (decide (candidateH < currentH)) := by
  unfold NoSideWays
  simp only [List.getElem?_cons_zero, List.getElem?_cons_succ]
  by_cases h : candidateH < currentH
  · rw [if_pos h]; simp [h]
  · rw [if_neg h]; simp [h]

/-- Under `NoSideWays` the loop returns within `k + 1` iterations when the
heuristic of the placement is at most `k`. -/
theorem HillClimbLoop_NoSideWays_returns (stepLimit : Int) (rand : Nat → Nat) (k : Nat) :
    ∀ (s : State), ValidPlacement s.pieces → s.pieces ≠ [] →
      SquareBoard s.pieces.length s.board → aggregateHeuristic s.pieces ≤ (k : Int) →
      ∃ res : Result, HillClimbLoop NoSideWays stepLimit rand (k + 1) s = Run.returned res := by
  induction k with
  | zero =>
    intro s hv hne hb hk
    obtain ⟨board', pieces', -, hv', -, hle, -, -, hcase⟩ :=
      HillClimbIter_cases NoSideWays stepLimit rand s hv hne hb
    rw [NoSideWays_apply] at hcase
    have h0 := aggregateHeuristic_nonneg pieces'
    rcases hcase with ⟨hd, -⟩ | ⟨hd, -⟩ | ⟨-, err, hiter, -⟩
    · cases hd
    · simp only [Option.some.injEq, decide_eq_true_eq] at hd
      simp only [Nat.cast_zero] at hk
      omega
    · exact ⟨⟨board', pieces', s.count + 1, err⟩, by simp only [HillClimbLoop, hiter]⟩
  | succ k ih =>
    intro s hv hne hb hk
    obtain ⟨board', pieces', hsq', hv', hlen', hle, -, -, hcase⟩ :=
      HillClimbIter_cases NoSideWays stepLimit rand s hv hne hb
    rw [NoSideWays_apply] at hcase
    rcases hcase with ⟨hd, -⟩ | ⟨hd, hiter⟩ | ⟨-, err, hiter, -⟩
    · cases hd
    · simp only [Option.some.injEq, decide_eq_true_eq] at hd
      have hne' : pieces' ≠ [] := by
        intro h
        rw [h] at hlen'
        exact hne (List.length_eq_zero.mp hlen'.symm)
      obtain ⟨res, hres⟩ := ih ⟨board', pieces', s.count + 1, s.draws + 1⟩ hv' hne'
        (hlen' ▸ hsq') (by push_cast at hk; show aggregateHeuristic pieces' ≤ (k : Int); omega)
      refine ⟨res, ?_⟩
      rw [HillClimbLoop]
      simp only [hiter]
      exact hres
    · exact ⟨⟨board', pieces', s.count + 1, err⟩, by simp only [HillClimbLoop, hiter]⟩

/-- C11: a run of `HillClimb` with the `NoSideWays` policy on a placement with
pairwise distinct columns and coordinates in `[0, n)` terminates whatever the
tie-break sequence: given as many iterations as the initial heuristic plus
one, the loop is not cut short, and on a non-empty placement it returns. -/
theorem HillClimb_NoSideWays_terminates (pieces : List Piece) (stepLimit : Int)
    (rand : Nat → Nat) (hv : ValidPlacement pieces) :
    ∃ fuel : Nat,
      HillClimb pieces NoSideWays stepLimit rand fuel ≠ Run.outOfFuel ∧
      (pieces ≠ [] → ∃ res : Result,
        HillClimb pieces NoSideWays stepLimit rand fuel = Run.returned res) := by
  by_cases hne : pieces = []
  · subst hne
    refine ⟨1, ?_, fun h => absurd rfl h⟩
    unfold HillClimb
    rw [HillClimbLoop, HillClimbIter_nil NoSideWays stepLimit rand (initState []) rfl rfl]
    simp
  · obtain ⟨res, hres⟩ := HillClimbLoop_NoSideWays_returns stepLimit rand
      (aggregateHeuristic pieces).toNat (initState pieces) hv hne (squareBoard_NewBoard _)
      (by
        show aggregateHeuristic pieces ≤ _
        rw [Int.toNat_of_nonneg (aggregateHeuristic_nonneg pieces)])
    refine ⟨(aggregateHeuristic pieces).toNat + 1, ?_, fun _ => ⟨res, hres⟩⟩
    unfold HillClimb
    rw [hres]
    simp

/-- C11 on `[(0,0), (1,0), (2,0), (3,0)]`. -/
theorem HillClimb_NoSideWays_terminates_witness :
    ValidPlacement [⟨0, 0⟩, ⟨1, 0⟩, ⟨2, 0⟩, ⟨3, 0⟩] ∧
    ∃ fuel : Nat,
      HillClimb [⟨0, 0⟩, ⟨1, 0⟩, ⟨2, 0⟩, ⟨3, 0⟩] NoSideWays 1000 (fun _ => 0) fuel ≠
        Run.outOfFuel ∧
      (([⟨0, 0⟩, ⟨1, 0⟩, ⟨2, 0⟩, ⟨3, 0⟩] : List Piece) ≠ [] → ∃ res : Result,
        HillClimb [⟨0, 0⟩, ⟨1, 0⟩, ⟨2, 0⟩, ⟨3, 0⟩] NoSideWays 1000 (fun _ => 0) fuel =
          Run.returned res) :=
  ⟨by decide,
    HillClimb_NoSideWays_terminates [⟨0, 0⟩, ⟨1, 0⟩, ⟨2, 0⟩, ⟨3, 0⟩] 1000 (fun _ => 0)
      (by decide)⟩

theorem HillClimbLoop_NoSideWays_count (stepLimit : Int) (rand : Nat → Nat) (fuel : Nat) :
    ∀ (s : State) (res : Result), ValidPlacement s.pieces → s.pieces ≠ [] →
      SquareBoard s.pieces.length s.board →
      HillClimbLoop NoSideWays stepLimit rand fuel s = Run.returned res →
      s.count + 1 ≤ res.count ∧ res.count ≤ s.count + aggregateHeuristic s.pieces + 1 := by
  induction fuel with
  | zero =>
    intro s res _ _ _ hrun
    simp [HillClimbLoop] at hrun
  | succ fuel ih =>
    intro s res hv hne hb hrun
    obtain ⟨board', pieces', hsq', hv', hlen', hle, -, -, hcase⟩ :=
      HillClimbIter_cases NoSideWays stepLimit rand s hv hne hb
    rw [NoSideWays_apply] at hcase
    have h0 := aggregateHeuristic_nonneg s.pieces
    rw [HillClimbLoop] at hrun
    rcases hcase with ⟨hd, -⟩ | ⟨hd, hiter⟩ | ⟨-, err, hiter, -⟩
    · cases hd
    · simp only [Option.some.injEq, decide_eq_true_eq] at hd
      have hne' : pieces' ≠ [] := by
        intro h
        rw [h] at hlen'
        exact hne (List.length_eq_zero.mp hlen'.symm)
      simp only [hiter] at hrun
      obtain ⟨h1, h2⟩ := ih ⟨board', pieces', s.count + 1, s.draws + 1⟩ res hv' hne'
        (hlen' ▸ hsq') hrun
      simp only at h1 h2
      constructor <;> omega
    · simp only [hiter, Run.returned.injEq] at hrun
      subst hrun
      simp only
      constructor <;> omega

/-- C12, as the code has it: the step count returned by `HillClimb` under
`NoSideWays` on a valid placement is at least 1 and at most the aggregate
heuristic of the initial placement plus one (the iteration that finds no
improvement is counted too). -/
theorem HillClimb_NoSideWays_count_le (pieces : List Piece) (stepLimit : Int)
    (rand : Nat → Nat) (fuel : Nat) (res : Result) (hv : ValidPlacement pieces)
    (hrun : HillClimb pieces NoSideWays stepLimit rand fuel = Run.returned res) :
    1 ≤ res.count ∧ res.count ≤ aggregateHeuristic pieces + 1 := by
  by_cases hne : pieces = []
  · subst hne
    exact absurd hrun (HillClimbLoop_nil NoSideWays stepLimit rand fuel res)
  · obtain ⟨h1, h2⟩ := HillClimbLoop_NoSideWays_count stepLimit rand fuel (initState pieces) res
      hv hne (squareBoard_NewBoard _) hrun
    simp only [initState] at h1 h2
    constructor <;> omega

/-- C12 (amended) on a run from `[(0,0), (1,0), (2,0), (3,0)]`. -/
theorem HillClimb_NoSideWays_count_le_witness :
    ValidPlacement [⟨0, 0⟩, ⟨1, 0⟩, ⟨2, 0⟩, ⟨3, 0⟩] ∧
    ∃ res : Result,
      HillClimb [⟨0, 0⟩, ⟨1, 0⟩, ⟨2, 0⟩, ⟨3, 0⟩] NoSideWays 1000 (fun _ => 0) 10 =
        Run.returned res ∧
      1 ≤ res.count ∧
      res.count ≤ aggregateHeuristic [⟨0, 0⟩, ⟨1, 0⟩, ⟨2, 0⟩, ⟨3, 0⟩] + 1 :=
  ⟨by decide, _, rfl,
    HillClimb_NoSideWays_count_le [⟨0, 0⟩, ⟨1, 0⟩, ⟨2, 0⟩, ⟨3, 0⟩] 1000 (fun _ => 0) 10 _
      (by decide) rfl⟩

/-- C12 fails as stated: the solved placement `[(0,1), (1,3), (2,0), (3,2)]` has
aggregate heuristic 0, and the run under `NoSideWays` returns after its first
iteration with step count 1. -/
theorem HillClimb_NoSideWays_count_exceeds_initial_heuristic :
    ValidPlacement [⟨0, 1⟩, ⟨1, 3⟩, ⟨2, 0⟩, ⟨3, 2⟩] ∧
    aggregateHeuristic [⟨0, 1⟩, ⟨1, 3⟩, ⟨2, 0⟩, ⟨3, 2⟩] = 0 ∧
    ∃ res : Result,
      HillClimb [⟨0, 1⟩, ⟨1, 3⟩, ⟨2, 0⟩, ⟨3, 2⟩] NoSideWays 1000 (fun _ => 0) 1 =
        Run.returned res ∧
      res.count = 1 ∧
      ¬ (res.count ≤ aggregateHeuristic [⟨0, 1⟩, ⟨1, 3⟩, ⟨2, 0⟩, ⟨3, 2⟩]) :=
  ⟨by decide, by decide, _, rfl, rfl, by decide⟩

/-! ## The step limit under the sideways policy -/

theorem HillClimbIter_continue (decision : Decision) (stepLimit : Int) (rand : Nat → Nat)
    (board : Board) (pieces : List Piece) (count : Int) (draws : Nat)
    (sc : Scan) (pieces' : List Piece)
    (hscan : scanMoves board pieces = some sc)
    (happly : applyMove (rand draws) sc = some pieces')
    (hd : decision [sc.hToBeat, sc.newH, count + 1, stepLimit] = some true) :
    HillClimbIter decision stepLimit rand ⟨board, pieces, count, draws⟩ =
      Step.next ⟨sc.board, pieces', count + 1, draws + 1⟩ := by
  unfold HillClimbIter
  simp only [hscan, happly, hd]

theorem HillClimbLoop_outOfFuel_of_stateAt (decision : Decision) (stepLimit : Int)
    (rand : Nat → Nat) (pieces : List Piece)
    (hall : ∀ i, ∃ s, stateAt decision stepLimit rand pieces i = some s) (fuel : Nat) :
    ∀ (k : Nat) (s : State), stateAt decision stepLimit rand pieces k = some s →
      HillClimbLoop decision stepLimit rand fuel s = Run.outOfFuel := by
  induction fuel with
  | zero => intro k s _; rfl
  | succ fuel ih =>
    intro k s hs
    obtain ⟨s', hs'⟩ := hall (k + 1)
    have hstep := stateAt_succ_eq decision stepLimit rand pieces k s s' hs hs'
    rw [HillClimbLoop]
    simp only [hstep]
    exact ih (k + 1) s' hs'

theorem scanMoves_new_plateauA : scanMoves (NewBoard 4) plateauA = some scanA := rfl

theorem scanMoves_plateauA : scanMoves scanA.board plateauA = some scanA := rfl

theorem scanMoves_plateauB : scanMoves scanA.board plateauB = some scanB := rfl

theorem scanMoves_plateauC : scanMoves scanB.board plateauC = some scanC := rfl

theorem scanMoves_plateauC_again : scanMoves scanC.board plateauC = some scanC := rfl

theorem applyMove_scanA_zero : applyMove 0 scanA = some plateauA := rfl

theorem applyMove_scanA_one : applyMove 1 scanA = some plateauB := rfl

theorem applyMove_scanB_zero : applyMove 0 scanB = some plateauC := rfl

theorem applyMove_scanC_zero : applyMove 0 scanC = some plateauC := rfl

theorem plateau_step (i : Nat) :
    HillClimbIter SideWays 1000 lateMove ⟨plateauBoard i, plateauPieces i, (i : Int), i⟩ =
      Step.next ⟨plateauBoard (i + 1), plateauPieces (i + 1), ((i + 1 : Nat) : Int), i + 1⟩ := by
  have hcast : ((i + 1 : Nat) : Int) = (i : Int) + 1 := by push_cast; rfl
  rw [hcast]
  by_cases h0 : i = 0
  · subst h0
    exact HillClimbIter_continue SideWays 1000 lateMove (NewBoard 4) plateauA 0 0 scanA
      plateauA scanMoves_new_plateauA applyMove_scanA_zero rfl
  · by_cases h1 : i ≤ 997
    · have hb : plateauBoard i = scanA.board := by
        unfold plateauBoard; rw [if_neg h0, if_pos (by omega)]
      have hp : plateauPieces i = plateauA := by
        unfold plateauPieces; rw [if_pos (by omega)]
      have hb' : plateauBoard (i + 1) = scanA.board := by
        unfold plateauBoard; rw [if_neg (by omega), if_pos (by omega)]
      have hp' : plateauPieces (i + 1) = plateauA := by
        unfold plateauPieces; rw [if_pos (by omega)]
      have hr : lateMove i = 0 := by
        show (if i = 998 then 1 else 0) = 0
        rw [if_neg (by omega)]
      rw [hb, hp, hb', hp']
      apply HillClimbIter_continue SideWays 1000 lateMove scanA.board plateauA (i : Int) i
        scanA plateauA scanMoves_plateauA
      · rw [hr]; exact applyMove_scanA_zero
      · show SideWays [2, 2, (i : Int) + 1, 1000] = some true
        rw [SideWays_apply]
        have : ¬ ((i : Int) + 1 = 1000) := by omega
        simp [this]
    · by_cases h2 : i = 998
      · subst h2
        exact HillClimbIter_continue SideWays 1000 lateMove scanA.board plateauA 998 998 scanA
          plateauB scanMoves_plateauA applyMove_scanA_one rfl
      · by_cases h3 : i = 999
        · subst h3
          exact HillClimbIter_continue SideWays 1000 lateMove scanA.board plateauB 999 999 scanB
            plateauC scanMoves_plateauB applyMove_scanB_zero rfl
        · by_cases h4 : i = 1000
          · subst h4
            exact HillClimbIter_continue SideWays 1000 lateMove scanB.board plateauC 1000 1000
              scanC plateauC scanMoves_plateauC applyMove_scanC_zero rfl
          · have hb : plateauBoard i = scanC.board := by
              unfold plateauBoard; rw [if_neg h0, if_neg (by omega), if_neg h4]
            have hp : plateauPieces i = plateauC := by
              unfold plateauPieces; rw [if_neg (by omega), if_neg h3]
            have hb' : plateauBoard (i + 1) = scanC.board := by
              unfold plateauBoard; rw [if_neg (by omega), if_neg (by omega), if_neg (by omega)]
            have hp' : plateauPieces (i + 1) = plateauC := by
              unfold plateauPieces; rw [if_neg (by omega), if_neg (by omega)]
            have hr : lateMove i = 0 := by
              show (if i = 998 then 1 else 0) = 0
              rw [if_neg h2]
            rw [hb, hp, hb', hp']
            apply HillClimbIter_continue SideWays 1000 lateMove scanC.board plateauC (i : Int) i
              scanC plateauC scanMoves_plateauC_again
            · rw [hr]; exact applyMove_scanC_zero
            · show SideWays [1, 1, (i : Int) + 1, 1000] = some true
              rw [SideWays_apply]
              have : ¬ ((i : Int) + 1 = 1000) := by omega
              simp [this]

theorem stateAt_plateau (i : Nat) :
    stateAt SideWays 1000 lateMove plateauA i =
      some ⟨plateauBoard i, plateauPieces i, (i : Int), i⟩ := by
  induction i with
  | zero => rfl
  | succ i ih =>
    rw [stateAt, ih]
    simp only [plateau_step i]

/-- The `SideWays` policy with `stepLimit = 1000` on the valid four-queens
placement `[(0,0), (1,1), (2,3), (3,2)]`, with every tie-break draw 0 except
the draw of iteration 999: iteration 1000 strictly improves the heuristic from
2 to 1, so `SideWays` continues although `stepCount == stepLimit`; the run
starts iteration 1002 with a step count of 1001 and heuristic 1, and it never
returns, however many iterations it is given. -/
theorem SideWays_run_passes_stepLimit :
    ValidPlacement plateauA ∧
    (∃ s : State, stateAt SideWays 1000 lateMove plateauA 1001 = some s ∧
      s.count = 1001 ∧ aggregateHeuristic s.pieces = 1) ∧
    ∀ fuel : Nat, HillClimb plateauA SideWays 1000 lateMove fuel = Run.outOfFuel := by
  refine ⟨by decide, ⟨_, stateAt_plateau 1001, rfl, by decide⟩, ?_⟩
  intro fuel
  exact HillClimbLoop_outOfFuel_of_stateAt SideWays 1000 lateMove plateauA
    (fun i => ⟨_, stateAt_plateau i⟩) fuel 0 (initState plateauA) rfl

/-! ## What an iteration changes -/

theorem moveRow_map_x (pieces : List Piece) (i : Nat) (r : Int) :
    (moveRow pieces i r).map (fun q => q.x) = pieces.map (fun q => q.x) := by
  unfold moveRow
  cases hp : pieces[i]? with
  | none => rfl
  | some p =>
    simp only
    have hi := getElem?_lt_length hp
    apply List.ext_getElem?
    intro j
    rw [List.getElem?_map, List.getElem?_map]
    by_cases hij : i = j
    · subst hij
      rw [List.getElem?_set_self hi, hp]
      rfl
    · rw [List.getElem?_set_ne hij]

/-- The placement an iteration leaves behind on a valid, non-empty placement:
one piece moved within its column, of least heuristic among all such moves. -/
theorem piecesAfter_spec (decision : Decision) (stepLimit : Int) (rand : Nat → Nat)
    (s : State) (hv : ValidPlacement s.pieces) (hne : s.pieces ≠ [])
    (hb : SquareBoard s.pieces.length s.board) (ps' : List Piece)
    (hafter : piecesAfter (HillClimbIter decision stepLimit rand s) = some ps') :
    ValidPlacement ps' ∧ ps'.length = s.pieces.length ∧
      aggregateHeuristic ps' ≤ aggregateHeuristic s.pieces ∧
      (∃ (i : Nat) (y : Int), i < s.pieces.length ∧
        (0 ≤ y ∧ y < (s.pieces.length : Int)) ∧ ps' = moveRow s.pieces i y) ∧
      (∀ (i : Nat) (y : Int), i < s.pieces.length → (0 ≤ y ∧ y < (s.pieces.length : Int)) →
        aggregateHeuristic ps' ≤ aggregateHeuristic (moveRow s.pieces i y)) := by
  obtain ⟨board', pieces', -, hv', hlen', hle, hmove, hmin, hcase⟩ :=
    HillClimbIter_cases decision stepLimit rand s hv hne hb
  have heq : ps' = pieces' := by
    rcases hcase with ⟨-, hiter⟩ | ⟨-, hiter⟩ | ⟨-, err, hiter, -⟩
    · rw [hiter] at hafter; cases hafter
    · rw [hiter] at hafter
      exact (Option.some.inj hafter).symm
    · rw [hiter] at hafter
      exact (Option.some.inj hafter).symm
  subst heq
  exact ⟨hv', hlen', hle, hmove, hmin⟩

theorem stateAt_columns (decision : Decision) (stepLimit : Int) (rand : Nat → Nat)
    (pieces : List Piece) (hv : ValidPlacement pieces) (i : Nat) (s : State)
    (hs : stateAt decision stepLimit rand pieces i = some s) :
    ValidPlacement s.pieces ∧ s.pieces.length = pieces.length ∧
      SquareBoard pieces.length s.board ∧
      s.pieces.map (fun q => q.x) = pieces.map (fun q => q.x) := by
  induction i generalizing s with
  | zero =>
    simp only [stateAt, Option.some.injEq] at hs
    subst hs
    exact ⟨hv, rfl, squareBoard_NewBoard _, rfl⟩
  | succ i ih =>
    cases hprev : stateAt decision stepLimit rand pieces i with
    | none => rw [stateAt, hprev] at hs; cases hs
    | some s0 =>
      obtain ⟨hv0, hlen0, hsq0, hcol0⟩ := ih s0 hprev
      have hstep := stateAt_succ_eq decision stepLimit rand pieces i s0 s hprev hs
      have hne0 : s0.pieces ≠ [] := by
        intro h
        exact absurd hstep (by
          rw [HillClimbIter_nil decision stepLimit rand s0 h
            (List.length_eq_zero.mp (by rw [hsq0.1, ← hlen0, h]; rfl))]
          exact fun h2 => Step.noConfusion h2)
      obtain ⟨hv1, hlen1, hsq1, -⟩ :=
        HillClimbIter_next decision stepLimit rand s0 s hv0 hne0 (hlen0 ▸ hsq0) hstep
      obtain ⟨-, -, -, ⟨j, y, -, -, hmove⟩, -⟩ :=
        piecesAfter_spec decision stepLimit rand s0 hv0 hne0 (hlen0 ▸ hsq0) s.pieces
          (by rw [hstep]; rfl)
      refine ⟨hv1, hlen1.trans hlen0, hlen0 ▸ hsq1, ?_⟩
      rw [hmove, moveRow_map_x, hcol0]

/-- C19: at the start of every iteration of a run of `HillClimb` on a placement
with pairwise distinct columns and coordinates in `[0, n)`, under any decision
policy and tie-break sequence, the piece at each slice index has the column it
had in the input and a row in `[0, n)`, and the columns are pairwise distinct;
the iteration itself replaces the slice by one in which a single piece has
moved to a row of `[0, n)` within its column, so the same holds for the slice
it leaves behind. -/
theorem HillClimb_moves_one_piece_in_its_column (pieces : List Piece) (decision : Decision)
    (stepLimit : Int) (rand : Nat → Nat) (i : Nat) (s : State)
    (hv : ValidPlacement pieces)
    (hs : stateAt decision stepLimit rand pieces i = some s) :
    (s.pieces.map (fun q => q.x) = pieces.map (fun q => q.x) ∧
      (∀ q ∈ s.pieces, 0 ≤ q.y ∧ q.y < (pieces.length : Int)) ∧
      ValidPlacement s.pieces) ∧
    ∀ ps' : List Piece,
      piecesAfter (HillClimbIter decision stepLimit rand s) = some ps' →
      (∃ (j : Nat) (y : Int), j < pieces.length ∧ (0 ≤ y ∧ y < (pieces.length : Int)) ∧
        ps' = moveRow s.pieces j y) ∧
      ps'.map (fun q => q.x) = pieces.map (fun q => q.x) ∧
      (∀ q ∈ ps', 0 ≤ q.y ∧ q.y < (pieces.length : Int)) ∧
      ValidPlacement ps' := by
  obtain ⟨hv0, hlen0, hsq0, hcol0⟩ := stateAt_columns decision stepLimit rand pieces hv i s hs
  refine ⟨⟨hcol0, ?_, hv0⟩, ?_⟩
  · intro q hq
    have := (hv0.range q hq).2
    rw [hlen0] at this
    exact this
  · intro ps' hafter
    have hne0 : s.pieces ≠ [] := by
      intro h
      rw [HillClimbIter_nil decision stepLimit rand s h
        (List.length_eq_zero.mp (by rw [hsq0.1, ← hlen0, h]; rfl))] at hafter
      cases hafter
    obtain ⟨hv1, hlen1, -, ⟨j, y, hj, hy, hmove⟩, -⟩ :=
      piecesAfter_spec decision stepLimit rand s hv0 hne0 (hlen0 ▸ hsq0) ps' hafter
    rw [hlen0] at hj hy
    refine ⟨⟨j, y, hj, hy, hmove⟩, ?_, ?_, hv1⟩
    · rw [hmove, moveRow_map_x, hcol0]
    · intro q hq
      have := (hv1.range q hq).2
      rw [hlen1, hlen0] at this
      exact this

/-- C19 at the second iteration of a sideways run from `[(0,0), (1,0), (2,0)]`. -/
theorem HillClimb_moves_one_piece_in_its_column_witness :
    ValidPlacement [⟨0, 0⟩, ⟨1, 0⟩, ⟨2, 0⟩] ∧
    ∃ s : State,
      stateAt SideWays 1000 (fun _ => 0) [⟨0, 0⟩, ⟨1, 0⟩, ⟨2, 0⟩] 1 = some s ∧
      (s.pieces.map (fun q => q.x) =
          ([⟨0, 0⟩, ⟨1, 0⟩, ⟨2, 0⟩] : List Piece).map (fun q => q.x) ∧
        (∀ q ∈ s.pieces, 0 ≤ q.y ∧
          q.y < (([⟨0, 0⟩, ⟨1, 0⟩, ⟨2, 0⟩] : List Piece).length : Int)) ∧
        ValidPlacement s.pieces) ∧
      ∀ ps' : List Piece,
        piecesAfter (HillClimbIter SideWays 1000 (fun _ => 0) s) = some ps' →
        (∃ (j : Nat) (y : Int), j < ([⟨0, 0⟩, ⟨1, 0⟩, ⟨2, 0⟩] : List Piece).length ∧
          (0 ≤ y ∧ y < (([⟨0, 0⟩, ⟨1, 0⟩, ⟨2, 0⟩] : List Piece).length : Int)) ∧
          ps' = moveRow s.pieces j y) ∧
        ps'.map (fun q => q.x) = ([⟨0, 0⟩, ⟨1, 0⟩, ⟨2, 0⟩] : List Piece).map (fun q => q.x) ∧
        (∀ q ∈ ps', 0 ≤ q.y ∧ q.y < (([⟨0, 0⟩, ⟨1, 0⟩, ⟨2, 0⟩] : List Piece).length : Int)) ∧
        ValidPlacement ps' :=
  ⟨by decide, _, rfl,
    HillClimb_moves_one_piece_in_its_column [⟨0, 0⟩, ⟨1, 0⟩, ⟨2, 0⟩] SideWays 1000
      (fun _ => 0) 1 _ (by decide) rfl⟩

/-! ## No worsening move -/

theorem HillClimbLoop_heuristic_le (decision : Decision) (stepLimit : Int) (rand : Nat → Nat)
    (fuel : Nat) :
    ∀ (s : State) (res : Result), ValidPlacement s.pieces → s.pieces ≠ [] →
      SquareBoard s.pieces.length s.board →
      HillClimbLoop decision stepLimit rand fuel s = Run.returned res →
      aggregateHeuristic res.pieces ≤ aggregateHeuristic s.pieces := by
  induction fuel with
  | zero =>
    intro s res _ _ _ hrun
    simp [HillClimbLoop] at hrun
  | succ fuel ih =>
    intro s res hv hne hb hrun
    obtain ⟨board', pieces', hsq', hv', hlen', hle, -, -, hcase⟩ :=
      HillClimbIter_cases decision stepLimit rand s hv hne hb
    rw [HillClimbLoop] at hrun
    rcases hcase with ⟨-, hiter⟩ | ⟨-, hiter⟩ | ⟨-, err, hiter, -⟩
    · simp only [hiter] at hrun
      cases hrun
    · have hne' : pieces' ≠ [] := by
        intro h
        rw [h] at hlen'
        exact hne (List.length_eq_zero.mp hlen'.symm)
      simp only [hiter] at hrun
      exact le_trans
        (ih ⟨board', pieces', s.count + 1, s.draws + 1⟩ res hv' hne' (hlen' ▸ hsq') hrun) hle
    · simp only [hiter, Run.returned.injEq] at hrun
      subst hrun
      exact hle

/-- C20: in a run of `HillClimb` on a placement with pairwise distinct columns
and coordinates in `[0, n)`, under any decision policy and tie-break sequence,
the aggregate heuristic of the placement an iteration leaves behind is the
minimum, over all pieces (one per column) and rows `r` in `[0, n)`, of the
heuristic of the placement with that piece at row `r`: it is attained by such a
move and is a lower bound of all of them; hence it is at most the heuristic
before the iteration, and the heuristic of a returned placement is at most that
of the initial placement. -/
theorem HillClimb_never_worsens (pieces : List Piece) (decision : Decision)
    (stepLimit : Int) (rand : Nat → Nat) (hv : ValidPlacement pieces) :
    (∀ (i : Nat) (s : State) (ps' : List Piece),
      stateAt decision stepLimit rand pieces i = some s →
      piecesAfter (HillClimbIter decision stepLimit rand s) = some ps' →
      (∃ (j : Nat) (y : Int), j < pieces.length ∧ (0 ≤ y ∧ y < (pieces.length : Int)) ∧
        aggregateHeuristic ps' = aggregateHeuristic (moveRow s.pieces j y)) ∧
      (∀ (j : Nat) (y : Int), j < pieces.length → (0 ≤ y ∧ y < (pieces.length : Int)) →
        aggregateHeuristic ps' ≤ aggregateHeuristic (moveRow s.pieces j y)) ∧
      aggregateHeuristic ps' ≤ aggregateHeuristic s.pieces) ∧
    (∀ (fuel : Nat) (res : Result),
      HillClimb pieces decision stepLimit rand fuel = Run.returned res →
      aggregateHeuristic res.pieces ≤ aggregateHeuristic pieces) := by
  constructor
  · intro i s ps' hs hafter
    obtain ⟨hv0, hlen0, hsq0, -⟩ := stateAt_columns decision stepLimit rand pieces hv i s hs
    have hne0 : s.pieces ≠ [] := by
      intro h
      rw [HillClimbIter_nil decision stepLimit rand s h
        (List.length_eq_zero.mp (by rw [hsq0.1, ← hlen0, h]; rfl))] at hafter
      cases hafter
    obtain ⟨-, -, hle, ⟨j, y, hj, hy, hmove⟩, hmin⟩ :=
      piecesAfter_spec decision stepLimit rand s hv0 hne0 (hlen0 ▸ hsq0) ps' hafter
    rw [hlen0] at hj hy
    refine ⟨⟨j, y, hj, hy, by rw [hmove]⟩, ?_, hle⟩
    intro k z hk hz
    exact hmin k z (by rw [hlen0]; exact hk) (by rw [hlen0]; exact hz)
  · intro fuel res hrun
    by_cases hne : pieces = []
    · subst hne
      exact absurd hrun (HillClimbLoop_nil decision stepLimit rand fuel res)
    · exact HillClimbLoop_heuristic_le decision stepLimit rand fuel (initState pieces) res hv hne
        (squareBoard_NewBoard _) hrun

/-- C20 on a sideways run from `[(0,0), (1,0), (2,0), (3,0)]`, which returns a
solved placement. -/
theorem HillClimb_never_worsens_witness :
    ValidPlacement [⟨0, 0⟩, ⟨1, 0⟩, ⟨2, 0⟩, ⟨3, 0⟩] ∧
    (∃ res : Result,
      HillClimb [⟨0, 0⟩, ⟨1, 0⟩, ⟨2, 0⟩, ⟨3, 0⟩] SideWays 1000 (fun _ => 0) 10 =
        Run.returned res ∧
      aggregateHeuristic res.pieces ≤ aggregateHeuristic [⟨0, 0⟩, ⟨1, 0⟩, ⟨2, 0⟩, ⟨3, 0⟩]) ∧
    ∃ (s : State) (ps' : List Piece),
      stateAt SideWays 1000 (fun _ => 0) [⟨0, 0⟩, ⟨1, 0⟩, ⟨2, 0⟩, ⟨3, 0⟩] 1 = some s ∧
      piecesAfter (HillClimbIter SideWays 1000 (fun _ => 0) s) = some ps' ∧
      (∃ (j : Nat) (y : Int), j < ([⟨0, 0⟩, ⟨1, 0⟩, ⟨2, 0⟩, ⟨3, 0⟩] : List Piece).length ∧
        (0 ≤ y ∧ y < (([⟨0, 0⟩, ⟨1, 0⟩, ⟨2, 0⟩, ⟨3, 0⟩] : List Piece).length : Int)) ∧
        aggregateHeuristic ps' = aggregateHeuristic (moveRow s.pieces j y)) ∧
      (∀ (j : Nat) (y : Int), j < ([⟨0, 0⟩, ⟨1, 0⟩, ⟨2, 0⟩, ⟨3, 0⟩] : List Piece).length →
        (0 ≤ y ∧ y < (([⟨0, 0⟩, ⟨1, 0⟩, ⟨2, 0⟩, ⟨3, 0⟩] : List Piece).length : Int)) →
        aggregateHeuristic ps' ≤ aggregateHeuristic (moveRow s.pieces j y)) ∧
      aggregateHeuristic ps' ≤ aggregateHeuristic s.pieces :=
  ⟨by decide,
    ⟨_, rfl,
      (HillClimb_never_worsens [⟨0, 0⟩, ⟨1, 0⟩, ⟨2, 0⟩, ⟨3, 0⟩] SideWays 1000 (fun _ => 0)
        (by decide)).2 10 _ rfl⟩,
    ⟨_, _, rfl, rfl,
      (HillClimb_never_worsens [⟨0, 0⟩, ⟨1, 0⟩, ⟨2, 0⟩, ⟨3, 0⟩] SideWays 1000 (fun _ => 0)
        (by decide)).1 1 _ _ rfl rfl⟩⟩

/-! ## Random placement -/

/-- The loop rule for a loop over `range n`, with the invariant indexed by the
number of positions already processed. -/
theorem forEach_range_invariant {σ : Type} (body : Nat → σ → Option σ) (Inv : Nat → σ → Prop)
    (n : Nat) (s0 : σ) (h0 : Inv 0 s0)
    (hstep : ∀ (i : Nat) (s : σ), i < n → Inv i s → ∃ s', body i s = some s' ∧ Inv (i + 1) s') :
    ∃ s', forEach body (List.range n) s0 = some s' ∧ Inv n s' := by
  have gen : ∀ k, k ≤ n → ∃ s', forEach body (List.range k) s0 = some s' ∧ Inv k s' := by
    intro k
    induction k with
    | zero => intro _; exact ⟨s0, rfl, h0⟩
    | succ k ih =>
      intro hk
      obtain ⟨s1, hrun, hinv⟩ := ih (Nat.le_of_succ_le hk)
      obtain ⟨s2, hb, hinv2⟩ := hstep k s1 (Nat.lt_of_succ_le hk) hinv
      refine ⟨s2, ?_, hinv2⟩
      rw [List.range_succ, forEach_append, hrun]
      simp only [forEach, hb]
  exact gen n (Nat.le_refl n)

theorem succ_mod_wrap (a n : Nat) (hn : 0 < n) :
    (if ((a % n : Nat) : Int) + 1 ≥ (n : Int) then (0 : Int) else ((a % n : Nat) : Int) + 1) =
      (((a + 1) % n : Nat) : Int) := by
  have hlt : a % n < n := Nat.mod_lt a hn
  have hmod : (a + 1) % n = (a % n + 1) % n := (Nat.mod_add_mod a n 1).symm
  by_cases h : a % n + 1 = n
  · have h1 : ((a % n : Nat) : Int) + 1 ≥ (n : Int) := by omega
    rw [if_pos h1, hmod, h, Nat.mod_self]
    rfl
  · have h1 : ¬ (((a % n : Nat) : Int) + 1 ≥ (n : Int)) := by omega
    have h2 : (a + 1) % n = a % n + 1 := by
      rw [hmod]
      exact Nat.mod_eq_of_lt (by omega)
    rw [if_neg h1, h2]
    rfl

theorem add_mod_inj (x0 n j k : Nat) (hj : j < n) (hk : k < n)
    (h : (x0 + j) % n = (x0 + k) % n) : j = k := by
  have h1 : j ≡ k [MOD n] := Nat.ModEq.add_left_cancel' x0 h
  have h2 : j % n = k % n := h1
  rwa [Nat.mod_eq_of_lt hj, Nat.mod_eq_of_lt hk] at h2

/-- The slice `RandomPlace` produces: position `j` holds column
`(x0 + j) mod n`, for `x0` the first draw, and a row in `[0, n)`. -/
theorem RandomPlace_spec (rand : Nat → Nat) (pieces : List Piece) (hne : pieces ≠ []) :
    ∃ out : List Piece, RandomPlace rand pieces = some (out, none) ∧
      out.length = pieces.length ∧
      ∀ j, j < pieces.length → ∃ p, out[j]? = some p ∧
        p.x = (((rand 0 % pieces.length + j) % pieces.length : Nat) : Int) ∧
        0 ≤ p.y ∧ p.y < (pieces.length : Int) := by
  have hn : 0 < pieces.length := List.length_pos.mpr hne
  have hintn : ∀ r, Intn r pieces.length = some (r % pieces.length) := by
    intro r
    unfold Intn
    rw [if_neg (Nat.pos_iff_ne_zero.mp hn)]
  obtain ⟨s', hrun, hlen, hx, hpos⟩ := forEach_range_invariant
    (placeBody pieces.length rand)
    (fun k s => s.1.length = pieces.length ∧
      s.2 = (((rand 0 % pieces.length + k) % pieces.length : Nat) : Int) ∧
      ∀ j, j < k → ∃ p, s.1[j]? = some p ∧
        p.x = (((rand 0 % pieces.length + j) % pieces.length : Nat) : Int) ∧
        0 ≤ p.y ∧ p.y < (pieces.length : Int))
    pieces.length (pieces, ((rand 0 % pieces.length : Nat) : Int))
    ⟨rfl, by
      show ((rand 0 % pieces.length : Nat) : Int) = _
      rw [Nat.add_zero, Nat.mod_mod], fun j hj => absurd hj (Nat.not_lt_zero j)⟩
    (by
      rintro i ⟨ps, x⟩ hi ⟨hlen, hx, hpos⟩
      simp only at hlen hx hpos
      refine ⟨(ps.set i ⟨x, ((rand (i + 1) % pieces.length : Nat) : Int)⟩,
        if x + 1 ≥ (pieces.length : Int) then 0 else x + 1), ?_, ?_, ?_, ?_⟩
      · unfold placeBody
        simp only [hintn]
        unfold sliceSet
        rw [if_pos (by rw [hlen]; exact hi)]
      · simp [hlen]
      · show (if x + 1 ≥ (pieces.length : Int) then 0 else x + 1) = _
        rw [hx, succ_mod_wrap _ _ hn]
        rfl
      · intro j hj
        by_cases hji : j = i
        · subst hji
          refine ⟨_, List.getElem?_set_self (by rw [hlen]; exact hi), hx, ?_, ?_⟩
          · exact Int.natCast_nonneg _
          · show ((rand (j + 1) % pieces.length : Nat) : Int) < _
            exact_mod_cast Nat.mod_lt _ hn
        · rw [List.getElem?_set_ne (fun h => hji h.symm)]
          exact hpos j (by omega))
  obtain ⟨out, x⟩ := s'
  simp only at hlen hx hpos
  refine ⟨out, ?_, hlen, hpos⟩
  unfold RandomPlace
  simp only [hintn, hrun]

theorem RandomPlace_valid (rand : Nat → Nat) (pieces : List Piece) (hne : pieces ≠ []) :
    ∃ out : List Piece, RandomPlace rand pieces = some (out, none) ∧
      out.length = pieces.length ∧ ValidPlacement out := by
  obtain ⟨out, hrun, hlen, hpos⟩ := RandomPlace_spec rand pieces hne
  have hn : 0 < pieces.length := List.length_pos.mpr hne
  refine ⟨out, hrun, hlen, ?_, ?_⟩
  · rw [List.nodup_iff_getElem?_ne_getElem?]
    intro i j hij hj heq
    rw [List.length_map, hlen] at hj
    obtain ⟨p, hp, hpx, -⟩ := hpos i (by omega)
    obtain ⟨q, hq, hqx, -⟩ := hpos j hj
    rw [List.getElem?_map, List.getElem?_map, hp, hq] at heq
    simp only [Option.map_some', Option.some.injEq] at heq
    rw [hpx, hqx] at heq
    have := add_mod_inj (rand 0 % pieces.length) pieces.length i j (by omega) hj
      (by exact_mod_cast heq)
    omega
  · intro p hp
    obtain ⟨j, hj⟩ := List.getElem?_of_mem hp
    have hjlt : j < pieces.length := hlen ▸ getElem?_lt_length hj
    obtain ⟨q, hq, hqx, hqy0, hqy1⟩ := hpos j hjlt
    rw [hj] at hq
    have hpq : p = q := Option.some.inj hq
    subst hpq
    rw [hlen]
    refine ⟨?_, ?_, hqy0, hqy1⟩
    · rw [hqx]; exact Int.natCast_nonneg _
    · rw [hqx]; exact_mod_cast Nat.mod_lt _ hn

/-- C16: on a non-empty slice of `n` pieces, whatever the random draws,
`RandomPlace` returns `n` pieces (and a `nil` error) whose columns are pairwise
distinct, with every column of `[0, n)` occurring exactly once, and whose
columns and rows all lie in `[0, n)`. -/
theorem RandomPlace_one_piece_per_column (rand : Nat → Nat) (pieces : List Piece)
    (hne : pieces ≠ []) :
    ∃ out : List Piece, RandomPlace rand pieces = some (out, none) ∧
      out.length = pieces.length ∧
      (out.map (fun p => p.x)).Nodup ∧
      (∀ c : Int, 0 ≤ c → c < (pieces.length : Int) → (out.map (fun p => p.x)).count c = 1) ∧
      (∀ p ∈ out, 0 ≤ p.x ∧ p.x < (pieces.length : Int) ∧
        0 ≤ p.y ∧ p.y < (pieces.length : Int)) := by
  obtain ⟨out, hrun, hlen, hv⟩ := RandomPlace_valid rand pieces hne
  refine ⟨out, hrun, hlen, hv.1, ?_, ?_⟩
  · intro c hc0 hc1
    obtain ⟨i, p, hp, hpx⟩ := hv.column c ⟨hc0, by rw [hlen]; exact hc1⟩
    apply List.count_eq_one_of_mem hv.1
    rw [List.mem_map]
    exact ⟨p, List.getElem?_mem hp, hpx⟩
  · intro p hp
    have := hv.2 p hp
    rw [hlen] at this
    exact this

/-- C16 on a four-piece slice with the draws `2, 7, 12, 17, 22`. -/
theorem RandomPlace_one_piece_per_column_witness :
    ([⟨0, 0⟩, ⟨0, 0⟩, ⟨0, 0⟩, ⟨0, 0⟩] : List Piece) ≠ [] ∧
    ∃ out : List Piece,
      RandomPlace (fun k => k * 5 + 2) [⟨0, 0⟩, ⟨0, 0⟩, ⟨0, 0⟩, ⟨0, 0⟩] = some (out, none) ∧
      out.length = ([⟨0, 0⟩, ⟨0, 0⟩, ⟨0, 0⟩, ⟨0, 0⟩] : List Piece).length ∧
      (out.map (fun p => p.x)).Nodup ∧
      (∀ c : Int, 0 ≤ c → c < (([⟨0, 0⟩, ⟨0, 0⟩, ⟨0, 0⟩, ⟨0, 0⟩] : List Piece).length : Int) →
        (out.map (fun p => p.x)).count c = 1) ∧
      (∀ p ∈ out, 0 ≤ p.x ∧
        p.x < (([⟨0, 0⟩, ⟨0, 0⟩, ⟨0, 0⟩, ⟨0, 0⟩] : List Piece).length : Int) ∧
        0 ≤ p.y ∧ p.y < (([⟨0, 0⟩, ⟨0, 0⟩, ⟨0, 0⟩, ⟨0, 0⟩] : List Piece).length : Int)) :=
  ⟨by decide,
    RandomPlace_one_piece_per_column (fun k => k * 5 + 2) [⟨0, 0⟩, ⟨0, 0⟩, ⟨0, 0⟩, ⟨0, 0⟩]
      (by decide)⟩

/-! ## The restart loop -/

theorem attemptOnce_done (cfg : Config) (climbFuel : Nat) (m : MainVars) (res : Result)
    (draws reads : Nat)
    (h : attemptOnce cfg climbFuel m = Outcome.done (res, draws, reads)) :
    ∃ placed : List Piece,
      placedFrom cfg (m.pieces, m.draws, m.reads) placed draws reads ∧
      HillClimb placed cfg.decisionFunc cfg.stepLimit (fun k => cfg.rand (draws + k))
        climbFuel = Run.returned res := by
  unfold attemptOnce at h
  cases hp : placePieces cfg m with
  | none => rw [hp] at h; cases h
  | some t =>
    obtain ⟨placed, d, r⟩ := t
    rw [hp] at h
    simp only at h
    cases hc : HillClimb placed cfg.decisionFunc cfg.stepLimit (fun k => cfg.rand (d + k))
        climbFuel with
    | panicked => rw [hc] at h; cases h
    | outOfFuel => rw [hc] at h; cases h
    | returned res0 =>
      rw [hc] at h
      simp only [Outcome.done.injEq, Prod.mk.injEq] at h
      obtain ⟨h1, h2, h3⟩ := h
      subst h1 h2 h3
      refine ⟨placed, ?_, hc⟩
      unfold placePieces at hp
      unfold placedFrom
      cases hm : cfg.useManual with
      | false =>
        left
        rw [hm] at hp
        simp only [Bool.not_false, if_true] at hp
        cases hr : RandomPlace (fun k => cfg.rand (m.draws + k)) m.pieces with
        | none => rw [hr] at hp; cases hp
        | some out =>
          rw [hr] at hp
          simp only [Option.some.injEq, Prod.mk.injEq] at hp
          obtain ⟨e1, e2, e3⟩ := hp
          exact ⟨rfl, ⟨out.2, by rw [← e1]⟩, e2.symm, e3.symm⟩
      | true =>
        right
        rw [hm] at hp
        simp only [Bool.not_true] at hp
        cases hr : SetManualPieces (cfg.manual m.reads) m.pieces with
        | none => rw [hr] at hp; simp at hp
        | some out =>
          rw [hr] at hp
          simp only [Bool.false_eq_true, if_false, Option.some.injEq, Prod.mk.injEq] at hp
          obtain ⟨e1, e2, e3⟩ := hp
          exact ⟨rfl, by rw [← e1], e2.symm, e3.symm⟩

/-- What the restart loop does: the trace grows by the errors of consecutive
attempts, each a call of `HillClimb` on a fresh placement. With
`randomRestart` off there is a single attempt and no increment; with it on,
one increment per failed attempt, ended by an attempt that returned `nil`. -/
theorem restartLoop_spec (cfg : Config) (climbFuel fuel : Nat) :
    ∀ (m m1 : MainVars) (l l1 : Locals),
      restartLoop cfg climbFuel fuel (m, l) = Outcome.done (m1, l1) →
      ∃ results : List Result,
        attemptsFrom cfg climbFuel (m.pieces, m.draws, m.reads) results
          (m1.pieces, m1.draws, m1.reads) ∧
        l1.attempts = l.attempts ++ results.map (fun r => r.err) ∧
        (m.randomRestart = false →
          results.length = 1 ∧ m1.randRestartCount = m.randRestartCount) ∧
        (m.randomRestart = true →
          ∃ (failed : List Result) (last : Result), results = failed ++ [last] ∧
            (∀ r ∈ failed, r.err ≠ none) ∧ last.err = none ∧
            m1.randRestartCount = m.randRestartCount + (failed.length : Int)) := by
  induction fuel with
  | zero =>
    intro m m1 l l1 h
    simp [restartLoop] at h
  | succ fuel ih =>
    intro m m1 l l1 h
    rw [restartLoop] at h
    cases ha : attemptOnce cfg climbFuel m with
    | panicked => rw [ha] at h; cases h
    | outOfFuel => rw [ha] at h; cases h
    | done r =>
      obtain ⟨res, draws, reads⟩ := r
      obtain ⟨placed, hplaced, hclimb⟩ := attemptOnce_done cfg climbFuel m res draws reads ha
      rw [ha] at h
      simp only at h
      by_cases herr : res.err = none
      · -- the attempt succeeded: the loop ends
        simp only [herr, if_true, Bool.not_false] at h
        simp only [Outcome.done.injEq, Prod.mk.injEq] at h
        obtain ⟨hm, hl⟩ := h
        subst hm hl
        refine ⟨[res], ⟨placed, draws, reads, hplaced, hclimb, rfl⟩, by simp [herr],
          fun _ => ⟨rfl, rfl⟩, fun _ => ⟨[], res, rfl, ?_, herr, ?_⟩⟩
        · intro e he; cases he
        · simp
      · simp only [herr, if_false] at h
        cases hrr : m.randomRestart with
        | false =>
          simp only [hrr, Bool.not_false, if_true] at h
          simp only [Outcome.done.injEq, Prod.mk.injEq] at h
          obtain ⟨hm, hl⟩ := h
          subst hm hl
          exact ⟨[res], ⟨placed, draws, reads, hplaced, hclimb, rfl⟩, rfl,
            fun _ => ⟨rfl, rfl⟩, fun h2 => Bool.noConfusion h2⟩
        | true =>
          simp only [hrr, Bool.not_true] at h
          obtain ⟨results, hchain, hnew, -, hon⟩ := ih _ m1 _ l1 h
          obtain ⟨failed, last, hf, hall, hlast, hcount⟩ := hon rfl
          simp only at hnew hcount hchain
          refine ⟨res :: results, ⟨placed, draws, reads, hplaced, hclimb, hchain⟩, ?_,
            fun h2 => Bool.noConfusion h2,
            fun _ => ⟨res :: failed, last, ?_, ?_, hlast, ?_⟩⟩
          · rw [hnew]; simp
          · rw [hf]; rfl
          · intro e he
            rcases List.mem_cons.mp he with he | he
            · rw [he]; exact herr
            · exact hall e he
          · rw [hcount]
            simp only [List.length_cons]
            push_cast
            ring

/-- C18: a call of `RunHillClimb` that completes, entered (as `main` always
does) with `randomRestart` equal to `randomRestartDef`. There is a list
`results` of what the attempts of the run returned, each the result of a call
of `HillClimb` on a fresh placement made from what the previous attempt left,
and these are all the attempts: the slice, the random draws and the manual
placements consumed on exit are those left by the last of them. With random
restart enabled the attempts are some failed ones (non-`nil` error) followed by
one that returned `nil`, and the restart counter has grown by exactly the
number of attempts that returned an error. With random restart disabled a
single attempt is made and the counter is unchanged. On exit `randomRestart`
is `randomRestartDef` again. -/
theorem RunHillClimb_restart_count (cfg : Config) (climbFuel fuel : Nat)
    (m m' : MainVars) (attempts : List (Option NoSolution))
    (hentry : m.randomRestart = cfg.randomRestartDef)
    (hrun : RunHillClimb cfg climbFuel fuel m = Outcome.done (m', attempts)) :
    ∃ results : List Result,
      attemptsFrom cfg climbFuel (m.pieces, m.draws, m.reads) results
        (m'.pieces, m'.draws, m'.reads) ∧
      attempts = results.map (fun r => r.err) ∧
      (cfg.randomRestartDef = true →
        m'.randRestartCount =
          m.randRestartCount + ((results.countP (fun r => decide (r.err ≠ none)) : Nat) : Int) ∧
        ∃ (failed : List Result) (last : Result), results = failed ++ [last] ∧
          (∀ r ∈ failed, r.err ≠ none) ∧ last.err = none) ∧
      (cfg.randomRestartDef = false →
        m'.randRestartCount = m.randRestartCount ∧ results.length = 1) ∧
      m'.randomRestart = cfg.randomRestartDef := by
  unfold RunHillClimb at hrun
  cases hloop : restartLoop cfg climbFuel fuel (m, ⟨0, none, 0, []⟩) with
  | panicked => rw [hloop] at hrun; cases hrun
  | outOfFuel => rw [hloop] at hrun; cases hrun
  | done r =>
    obtain ⟨m1, l1⟩ := r
    rw [hloop] at hrun
    simp only at hrun
    obtain ⟨results, hchain, hnew, hoff, hon⟩ :=
      restartLoop_spec cfg climbFuel fuel m m1 _ l1 hloop
    simp only [List.nil_append] at hnew
    have hfacts : m'.randRestartCount = m1.randRestartCount ∧ attempts = l1.attempts ∧
        m'.randomRestart = cfg.randomRestartDef ∧
        (m'.pieces, m'.draws, m'.reads) = (m1.pieces, m1.draws, m1.reads) := by
      by_cases herr : l1.err ≠ none
      · rw [if_pos herr] at hrun
        simp only [Outcome.done.injEq, Prod.mk.injEq] at hrun
        obtain ⟨hm, ha⟩ := hrun
        subst hm ha
        exact ⟨rfl, rfl, rfl, rfl⟩
      · rw [if_neg herr] at hrun
        simp only [Outcome.done.injEq, Prod.mk.injEq] at hrun
        obtain ⟨hm, ha⟩ := hrun
        subst hm ha
        exact ⟨rfl, rfl, rfl, rfl⟩
    obtain ⟨hcount, hatt, hrr, hleft⟩ := hfacts
    refine ⟨results, by rw [hleft]; exact hchain, by rw [hatt, hnew], ?_, ?_, hrr⟩
    · intro hdef
      obtain ⟨failed, last, hf, hall, hlast, hc⟩ := hon (hentry.trans hdef)
      refine ⟨?_, failed, last, hf, hall, hlast⟩
      rw [hcount, hc, hf, List.countP_append]
      have h1 : failed.countP (fun r => decide (r.err ≠ none)) = failed.length := by
        rw [List.countP_eq_length]
        intro r hr
        simpa using hall r hr
      rw [h1]
      simp [hlast]
    · intro hdef
      obtain ⟨hlen, hc⟩ := hoff (hentry.trans hdef)
      exact ⟨hcount.trans hc, hlen⟩

/-- C18 on a run with one failed attempt (the placement `plateauA`) followed by
a successful one: the counter goes from 0 to 1. -/
theorem RunHillClimb_restart_count_witness :
    restartDemoVars.randomRestart = restartDemo.randomRestartDef ∧
    ∃ (m' : MainVars) (attempts : List (Option NoSolution)),
      RunHillClimb restartDemo 5 5 restartDemoVars = Outcome.done (m', attempts) ∧
      attempts = [some ⟨"No Solution Found"⟩, none] ∧
      m'.randRestartCount = 1 ∧
      ∃ results : List Result,
        attemptsFrom restartDemo 5
          (restartDemoVars.pieces, restartDemoVars.draws, restartDemoVars.reads) results
          (m'.pieces, m'.draws, m'.reads) ∧
        attempts = results.map (fun r => r.err) ∧
        (restartDemo.randomRestartDef = true →
          m'.randRestartCount =
            restartDemoVars.randRestartCount +
              ((results.countP (fun r => decide (r.err ≠ none)) : Nat) : Int) ∧
          ∃ (failed : List Result) (last : Result), results = failed ++ [last] ∧
            (∀ r ∈ failed, r.err ≠ none) ∧ last.err = none) ∧
        (restartDemo.randomRestartDef = false →
          m'.randRestartCount = restartDemoVars.randRestartCount ∧ results.length = 1) ∧
        m'.randomRestart = restartDemo.randomRestartDef :=
  ⟨rfl, _, _, rfl, rfl, rfl,
    RunHillClimb_restart_count restartDemo 5 5 restartDemoVars _ _ rfl rfl⟩

end NQueens
